import Mathlib

/-!
# Verification of the k6 documentation section index (grafana/mcp-k6)

Shallow embedding of `internal/sections` (parser.go, indexer.go, tree.go,
section.go, finder.go) from the Go source.  Strings are Lean `String`s, and
the Go standard-library string helpers used by the code
(`strings.TrimPrefix`, `strings.TrimSuffix`, `strings.Split`,
`strings.Contains`, `strings.Join`, `strings.ToLower`) are modelled
structurally over the underlying character lists so that every definition
evaluates by kernel reduction.  Go maps are modelled as association lists
with explicit overwrite/insert-if-absent operations; Go's `(value, error)`
returns are modelled with `Except String`.
-/

namespace McpK6

/-- Model of Go `strings.TrimPrefix p s`: drops `p` when it is a prefix of
`s`, otherwise returns `s` unchanged. -/
def trimPrefixStr (p s : String) : String :=
  if p.data.isPrefixOf s.data then ⟨s.data.drop p.data.length⟩ else s

/-- Model of Go `strings.TrimSuffix p s`: drops `p` when it is a suffix of
`s`, otherwise returns `s` unchanged. -/
def trimSuffixStr (p s : String) : String :=
  if p.data.isSuffixOf s.data then ⟨s.data.take (s.data.length - p.data.length)⟩ else s

/-- `strEndsWith suf s` models Go `strings.HasSuffix(s, suf)`. -/
def strEndsWith (suf s : String) : Bool :=
  suf.data.isSuffixOf s.data

/-- Split a character list at every occurrence of `sep`; the empty list
splits to `[[]]`, matching Go `strings.Split` (which never returns an empty
slice). -/
def splitCharList (sep : Char) : List Char → List (List Char)
  | [] => [[]]
  | c :: cs =>
    if c = sep then [] :: splitCharList sep cs
    else
      match splitCharList sep cs with
      | [] => [[c]]
      | g :: gs => (c :: g) :: gs

/-- Model of Go `strings.Split(s, sep)` for a one-character separator. -/
def splitOnSep (sep : Char) (s : String) : List String :=
  (splitCharList sep s.data).map String.mk

/-- Join character lists with a separator character (the character-level
core of Go `strings.Join(ls, "\n")`). -/
def joinCharList (sep : Char) : List (List Char) → List Char
  | [] => []
  | [g] => g
  | g :: gs => g ++ sep :: joinCharList sep gs

/-- Model of Go `strings.Join(ls, sep)` for a one-character separator. -/
def joinSep (sep : Char) (ls : List String) : String :=
  ⟨joinCharList sep (ls.map String.data)⟩

/-- `subOccurs sub s = true` iff `sub` occurs as a contiguous run in `s`;
character-level core of Go `strings.Contains`. -/
def subOccurs (sub : List Char) : List Char → Bool
  | [] => sub.isEmpty
  | c :: cs => sub.isPrefixOf (c :: cs) || subOccurs sub cs

/-- Model of Go `strings.Contains(s, sub)`. -/
def strContains (s sub : String) : Bool :=
  subOccurs sub.data s.data

/-- Model of Go `strings.ToLower` (ASCII case folding, which is all the
indexed corpus uses). -/
def strToLower (s : String) : String :=
  ⟨s.data.map Char.toLower⟩

/-! ## Data model (section.go) -/

/-- `Section` from section.go: one documentation unit.  Field `path` has
JSON tag `"-"` (never serialized); all other fields are serialized. -/
structure Section where
  slug : String
  path : String
  relPath : String
  title : String
  description : String
  weight : Int
  aliases : List String
  category : String
  hierarchy : List String
  isIndex : Bool
  deriving Repr, DecidableEq

/-- `Frontmatter` from section.go: YAML frontmatter of a markdown file. -/
structure Frontmatter where
  title : String
  description : String
  weight : Int
  aliases : List String
  menuTitle : String
  deriving Repr, DecidableEq

/-- Association-list model of a Go `map[string]α`: `mlookup` returns the
binding of the first matching key. -/
def mlookup {α : Type} : List (String × α) → String → Option α
  | [], _ => none
  | (k, v) :: rest, key => if k = key then some v else mlookup rest key

/-- Go map assignment `m[k] = v`: replaces the binding of `k` when present,
otherwise appends it. -/
def minsert {α : Type} : List (String × α) → String → α → List (String × α)
  | [], k, v => [(k, v)]
  | (k', v') :: rest, k, v =>
    if k' = k then (k, v) :: rest else (k', v') :: minsert rest k v

/-- `SectionIndex` from section.go.  `bySlug` and `byPath` carry JSON tag
`"-"` (runtime-only, never serialized). -/
structure SectionIndex where
  versions : List String
  latest : String
  sections : List (String × List Section)
  bySlug : List (String × List (String × Section))
  byPath : List (String × List (String × Section))
  deriving Repr, DecidableEq

/-- `SectionIndex.GetVersion`: sections of a version, `nil` (here `[]`)
when absent. -/
def SectionIndex.getVersion (idx : SectionIndex) (version : String) : List Section :=
  (mlookup idx.sections version).getD []

/-- `SectionIndex.HasVersion`. -/
def SectionIndex.hasVersion (idx : SectionIndex) (version : String) : Bool :=
  (mlookup idx.sections version).isSome

/-! ## Frontmatter parser (parser.go) -/

/-- Model of Go `strings.TrimSpace` on a character list (the corpus is
ASCII, where Lean's `Char.isWhitespace` agrees with Go's definition). -/
def trimSpaceChars (l : List Char) : List Char :=
  ((l.dropWhile Char.isWhitespace).reverse.dropWhile Char.isWhitespace).reverse

/-- Split a character list at the first occurrence of `sep`; `none` when
`sep` is absent.  Models `strings.SplitN(s, sep, 2)` producing two parts. -/
def splitFirst (sep : Char) : List Char → Option (List Char × List Char)
  | [] => none
  | c :: cs =>
    if c = sep then some ([], cs)
    else (splitFirst sep cs).map (fun p => (c :: p.1, p.2))

/-- `topLevelKey` from parser.go: the top-level YAML key a line declares,
when it declares one. -/
def topLevelKey (line : String) : Option String :=
  match line.data with
  | [] => none
  | c :: cs =>
    if c = ' ' ∨ c = '\t' then none
    else
      match trimSpaceChars (c :: cs) with
      | [] => none
      | t :: ts =>
        if t = '#' ∨ t = '-' then none
        else
          match splitFirst ':' (t :: ts) with
          | none => none
          | some p =>
            if trimSpaceChars p.1 = []
                ∨ (trimSpaceChars p.1).any (fun ch => ch = ' ' ∨ ch = '\t') then none
            else some ⟨trimSpaceChars p.1⟩

/-- Longest run of lines carrying no top-level key, paired with the
remaining lines (which are empty or start with a key-carrying line). -/
def collectBody : List String → List String × List String
  | [] => ([], [])
  | l :: ls =>
    if (topLevelKey l).isSome then ([], l :: ls)
    else ((collectBody ls).1.cons l, (collectBody ls).2)

theorem collectBody_snd_length (ls : List String) :
    (collectBody ls).2.length ≤ ls.length := by
  induction ls with
  | nil => simp [collectBody]
  | cons l ls ih =>
    by_cases h : (topLevelKey l).isSome
    · simp [collectBody, h]
    · simp only [collectBody, h, Bool.false_eq_true, if_false, List.length_cons]
      omega

/-- Fuel-indexed block decomposition; the fuel only serves structural
termination and never runs out at the call in `splitBlocks`, because every
step consumes at least the head line and `collectBody` never grows its
remainder. -/
def splitBlocksFuel : Nat → List String → List (String × List String)
  | _, [] => []
  | 0, _ :: _ => []
  | fuel + 1, l :: ls =>
    match topLevelKey l with
    | some k => (k, l :: (collectBody ls).1) :: splitBlocksFuel fuel (collectBody ls).2
    | none => ("", l :: (collectBody ls).1) :: splitBlocksFuel fuel (collectBody ls).2

/-- The block decomposition underlying `dedupeFrontmatter` in parser.go:
the optional leading span before the first top-level key becomes a block
with key `""`, and each top-level key line starts a block extending to the
line before the next key line (parser.go computes the same spans with line
indices and a `lastBlock` map). -/
def splitBlocks (ls : List String) : List (String × List String) :=
  splitBlocksFuel ls.length ls

theorem splitBlocksFuel_nil (fuel : Nat) : splitBlocksFuel fuel [] = [] := by
  cases fuel <;> rfl

theorem splitBlocksFuel_congr :
    ∀ (n : Nat) (ls : List String), ls.length ≤ n →
      ∀ (f1 f2 : Nat), ls.length ≤ f1 → ls.length ≤ f2 →
        splitBlocksFuel f1 ls = splitBlocksFuel f2 ls := by
  intro n
  induction n with
  | zero =>
    intro ls h f1 f2 _ _
    have : ls = [] := List.length_eq_zero.mp (Nat.le_zero.mp h)
    subst this
    rw [splitBlocksFuel_nil, splitBlocksFuel_nil]
  | succ n ih =>
    intro ls h f1 f2 h1 h2
    match ls with
    | [] => rw [splitBlocksFuel_nil, splitBlocksFuel_nil]
    | l :: ls =>
      match f1, f2 with
      | g1 + 1, g2 + 1 =>
        have hrest := collectBody_snd_length ls
        simp only [List.length_cons] at h h1 h2
        have hrec : splitBlocksFuel g1 (collectBody ls).2
            = splitBlocksFuel g2 (collectBody ls).2 :=
          ih (collectBody ls).2 (by omega) g1 g2 (by omega) (by omega)
        simp only [splitBlocksFuel]
        cases topLevelKey l <;> simp [hrec]

theorem splitBlocksFuel_adequate (fuel : Nat) (ls : List String)
    (hle : ls.length ≤ fuel) : splitBlocksFuel fuel ls = splitBlocks ls :=
  splitBlocksFuel_congr ls.length ls le_rfl fuel ls.length hle le_rfl

/-- One-step unfolding of `splitBlocks` on a non-empty line list. -/
theorem splitBlocks_cons (l : String) (ls : List String) :
    splitBlocks (l :: ls) =
      ((topLevelKey l).getD "", l :: (collectBody ls).1)
        :: splitBlocks (collectBody ls).2 := by
  have hrest := collectBody_snd_length ls
  simp only [splitBlocks, List.length_cons, splitBlocksFuel]
  cases topLevelKey l <;>
    simp [splitBlocksFuel_adequate ls.length (collectBody ls).2 hrest, splitBlocks]

/-- The `lastBlock` filter of `dedupeFrontmatter`: a block is kept exactly
when its key is `""` or no later block carries the same key (parser.go
keeps block `i` when `lastBlock[key] == i`, which is the same condition). -/
def keepLast : List (String × List String) → List (String × List String)
  | [] => []
  | b :: bs =>
    if b.1 ≠ "" ∧ bs.any (fun c => c.1 = b.1) then keepLast bs
    else b :: keepLast bs

/-- Line-level core of `dedupeFrontmatter`: when no line carries a
top-level key the input is returned unchanged (parser.go's
`len(keyLines) == 0` early return), otherwise the kept blocks are
re-joined. -/
def dedupeFrontmatterLines (ls : List String) : List String :=
  let bs := splitBlocks ls
  if bs.all (fun b => b.1 = "") then ls
  else ((keepLast bs).map Prod.snd).flatten

/-- `dedupeFrontmatter` from parser.go: split on newlines, keep the last
block per duplicated top-level key, re-join with newlines. -/
def dedupeFrontmatter (raw : String) : String :=
  joinSep '\n' (dedupeFrontmatterLines (splitOnSep '\n' raw))

/-- The YAML-parsing part of `ParseFrontmatter` (parser.go lines 46-62),
starting from the raw frontmatter text between the delimiters.  The YAML
library (`gopkg.in/yaml.v3`, external to this repository) is a parameter;
its duplicate-key failures are recognized, as in the source, by the
substring `"mapping key"` in the error text. -/
def parseFrontmatterRaw (yamlParse : String → Except String Frontmatter)
    (raw : String) : Except String Frontmatter :=
  match yamlParse raw with
  | .ok fm => .ok fm
  | .error e =>
    if strContains e "mapping key" = false then
      .error ("failed to parse frontmatter YAML: " ++ e)
    else if dedupeFrontmatter raw = raw then
      .error ("failed to parse frontmatter YAML: " ++ e)
    else
      match yamlParse (dedupeFrontmatter raw) with
      | .ok fm => .ok fm
      | .error e2 => .error ("failed to parse frontmatter YAML: " ++ e2)

/-! ## Section extraction (parser.go) -/

/-- `pathToSlug` from parser.go.  On the target platform
`filepath.Separator` is `/`, so the source's two `TrimSuffix` calls (one
with `string(filepath.Separator)+"_index"`, one with the literal
`"/_index"`) strip the same suffix twice, and the final
`ReplaceAll(slug, separator, "/")` is the identity. -/
def pathToSlug (relPath : String) : String :=
  trimSuffixStr "/_index" (trimSuffixStr "/_index" (trimSuffixStr ".md" relPath))

/-- Model of Go `filepath.Dir` for the clean relative paths produced by
the directory walk: everything before the last `/`, or `"."` when the path
has a single component. -/
def dirOf (p : String) : String :=
  let parts := splitOnSep '/' p
  if parts.length ≤ 1 then "." else joinSep '/' parts.dropLast

/-- Model of Go `filepath.Base` for the paths produced by the walk: the
last `/`-separated component. -/
def baseNameOf (p : String) : String :=
  (splitOnSep '/' p).getLastD ""

/-- `buildHierarchy` from parser.go. -/
def buildHierarchy (relPath : String) : List String :=
  let dir := dirOf relPath
  if dir = "." ∨ dir = "" then []
  else (splitOnSep '/' dir).filter (fun part => part ≠ "" ∧ part ≠ ".")

/-- `ExtractSection` from parser.go, with file access abstracted away: the
file is given by its path relative to the version root plus its parsed
frontmatter.  The absolute path (`WalkDir`'s `path` argument) is the
version root joined with the relative path. -/
def extractSection (docsRoot relPath : String) (fm : Frontmatter) : Section :=
  let hierarchy := buildHierarchy relPath
  { slug := pathToSlug relPath
    path := docsRoot ++ "/" ++ relPath
    relPath := relPath
    title := fm.title
    description := fm.description
    weight := fm.weight
    aliases := fm.aliases
    category := hierarchy.headD ""
    hierarchy := hierarchy
    isIndex := baseNameOf relPath = "_index.md" }

/-! ## Indexer (indexer.go) -/

/-- Lexicographic strict comparison of character lists; the core of Go's
`<` on strings (byte-wise there, codepoint-wise here — identical on the
ASCII corpus). -/
def charListLt : List Char → List Char → Bool
  | [], [] => false
  | [], _ :: _ => true
  | _ :: _, [] => false
  | a :: as, b :: bs =>
    if a = b then charListLt as bs else decide (a.val.toNat < b.val.toNat)

/-- Go `a < b` on strings. -/
def strLt (a b : String) : Bool :=
  charListLt a.data b.data

/-- The comparator passed to `sort.Slice` in `BuildSectionIndex` and
`BuildMultiVersionIndex`: by weight, ties by title. -/
def sectionLess (a b : Section) : Bool :=
  if a.weight ≠ b.weight then decide (a.weight < b.weight)
  else strLt a.title b.title

/-- The order the sorted output satisfies: `a` may precede `b` exactly
when the comparator does not demand `b` before `a`. -/
def sectionOrd (a b : Section) : Prop :=
  sectionLess b a = false

instance : DecidableRel sectionOrd := fun a b =>
  inferInstanceAs (Decidable (sectionLess b a = false))

/-- Sorting of a version's section list (`sort.Slice` produces some list
sorted for the comparator; insertion sort is one such). -/
def sortSections (l : List Section) : List Section :=
  List.insertionSort sectionOrd l

/-- Alias normalization from `buildRuntimeIndexes` (indexer.go 158-160). -/
def cleanAlias (a : String) : String :=
  trimPrefixStr "docs/k6/" (trimPrefixStr "/" a)

/-- One iteration of the alias-registration loop of
`buildRuntimeIndexes` (indexer.go 157-167): an alias is registered only
when non-empty after cleaning and the key is not already claimed. -/
def aliasStep (s : Section) (m : List (String × Section)) (a : String) :
    List (String × Section) :=
  let c := cleanAlias a
  if c ≠ "" then
    if (mlookup m c).isSome then m else minsert m c s
  else m

/-- The alias-registration loop of `buildRuntimeIndexes`. -/
def registerAliases (m : List (String × Section)) (s : Section) : List (String × Section) :=
  s.aliases.foldl (aliasStep s) m

/-- The per-section body of `buildRuntimeIndexes`: unconditional primary
slug write, unconditional relPath write, then alias registration. -/
def indexSectionInto (mp : List (String × Section) × List (String × Section))
    (s : Section) : List (String × Section) × List (String × Section) :=
  (registerAliases (minsert mp.1 s.slug s) s, minsert mp.2 s.relPath s)

/-- One iteration of the outer loop of `buildRuntimeIndexes`: fold every
section of one version into the (possibly pre-existing) by-slug and
by-path maps of that version. -/
def indexVersionStep (acc : SectionIndex) (vs : String × List Section) : SectionIndex :=
  let mp := vs.2.foldl indexSectionInto
    ((mlookup acc.bySlug vs.1).getD [], (mlookup acc.byPath vs.1).getD [])
  { acc with
    bySlug := minsert acc.bySlug vs.1 mp.1
    byPath := minsert acc.byPath vs.1 mp.2 }

/-- `buildRuntimeIndexes` from indexer.go: for each version, fold every
section of that version into the runtime lookup maps. -/
def SectionIndex.buildRuntimeIndexes (idx : SectionIndex) : SectionIndex :=
  idx.sections.foldl indexVersionStep idx

/-- An index whose runtime maps have just been built from its section
lists (the state every constructor in indexer.go leaves the index in). -/
def mkIndex (versions : List String) (latest : String)
    (sections : List (String × List Section)) : SectionIndex :=
  SectionIndex.buildRuntimeIndexes ⟨versions, latest, sections, [], []⟩

/-- `BuildSectionIndex` from indexer.go with the filesystem walk
abstracted: `files` lists, in walk order, each file's path relative to
`docsPath` together with its parsed frontmatter.  Only `.md` files are
processed. -/
def buildSectionIndexModel (docsPath version : String)
    (files : List (String × Frontmatter)) : SectionIndex :=
  let sections :=
    (files.filter (fun f => strEndsWith ".md" f.1)).map
      (fun f => extractSection docsPath f.1 f.2)
  mkIndex [version] version [(version, sortSections sections)]

/-- `BuildMultiVersionIndex` from indexer.go with the filesystem walk
abstracted: one `(version, files)` entry per version directory.  The first
version is taken as latest. -/
def buildMultiVersionIndexModel (docsRootPath : String)
    (versionFiles : List (String × List (String × Frontmatter))) :
    Except String SectionIndex :=
  if versionFiles.isEmpty then .error "no versions specified"
  else
    let sections := versionFiles.map (fun vf =>
      (vf.1, sortSections ((vf.2.filter (fun f => strEndsWith ".md" f.1)).map
        (fun f => extractSection (docsRootPath ++ "/" ++ vf.1) f.1 f.2))))
    .ok (mkIndex (versionFiles.map Prod.fst) ((versionFiles.map Prod.fst).headD "") sections)

/-! ## Serializer / loader (indexer.go WriteJSON / LoadJSON) -/

/-- The Section fields that reach the JSON document: every field except
`path`, whose JSON tag is `"-"`. -/
structure SerializedSection where
  slug : String
  relPath : String
  title : String
  description : String
  weight : Int
  aliases : List String
  category : String
  hierarchy : List String
  isIndex : Bool
  deriving Repr, DecidableEq

/-- JSON marshalling of one Section (drops `path`). -/
def Section.serialize (s : Section) : SerializedSection :=
  ⟨s.slug, s.relPath, s.title, s.description, s.weight, s.aliases, s.category,
    s.hierarchy, s.isIndex⟩

/-- JSON unmarshalling of one Section: the non-serialized `path` comes
back as the zero value `""`. -/
def SerializedSection.deserialize (s : SerializedSection) : Section :=
  ⟨s.slug, "", s.relPath, s.title, s.description, s.weight, s.aliases, s.category,
    s.hierarchy, s.isIndex⟩

/-- The JSON document `WriteJSON` produces: versions, latest and the
per-version section lists; `bySlug`/`byPath` are never serialized. -/
structure SerializedIndex where
  versions : List String
  latest : String
  sections : List (String × List SerializedSection)
  deriving Repr, DecidableEq

/-- `WriteJSON` from indexer.go, modelled as producing the marshalled
document. -/
def SectionIndex.writeJSON (idx : SectionIndex) : SerializedIndex :=
  ⟨idx.versions, idx.latest, idx.sections.map (fun vs => (vs.1, vs.2.map Section.serialize))⟩

/-- `LoadJSON` from indexer.go: unmarshal the document, start from empty
runtime maps, and rebuild them with `buildRuntimeIndexes`. -/
def loadJSON (d : SerializedIndex) : SectionIndex :=
  SectionIndex.buildRuntimeIndexes
    ⟨d.versions, d.latest,
      d.sections.map (fun vs => (vs.1, vs.2.map SerializedSection.deserialize)), [], []⟩

/-! ## Finder (finder.go) -/

/-- `Finder.resolveVersion`. -/
def resolveVersion (idx : SectionIndex) (version : String) : String :=
  if version = "" then idx.latest else version

/-- `Finder.GetAll`. -/
def getAll (idx : SectionIndex) (version : String) : Except String (List Section) :=
  let v := resolveVersion idx version
  if idx.hasVersion v = false then .error ("version not found: " ++ v)
  else .ok (idx.getVersion v)

/-- `Finder.GetBySlug` (alias-aware lookup through the by-slug map). -/
def getBySlug (idx : SectionIndex) (slug version : String) : Except String Section :=
  let v := resolveVersion idx version
  if idx.hasVersion v = false then .error ("version not found: " ++ v)
  else
    match mlookup idx.bySlug v with
    | none => .error ("no slug index for version: " ++ v)
    | some versionIndex =>
      match mlookup versionIndex slug with
      | none => .error ("section not found: " ++ slug)
      | some s => .ok s

/-- `Finder.GetByCategory`: linear filter preserving list order. -/
def getByCategory (idx : SectionIndex) (category version : String) :
    Except String (List Section) :=
  let v := resolveVersion idx version
  if idx.hasVersion v = false then .error ("version not found: " ++ v)
  else .ok ((idx.getVersion v).filter (fun s => s.category = category))

/-- `Finder.Search`: case-insensitive substring match against title,
description and slug. -/
def search (idx : SectionIndex) (query version : String) :
    Except String (List Section) :=
  let v := resolveVersion idx version
  if idx.hasVersion v = false then .error ("version not found: " ++ v)
  else
    let q := strToLower query
    .ok ((idx.getVersion v).filter (fun s =>
      strContains (strToLower s.title) q
        || strContains (strToLower s.description) q
        || strContains (strToLower s.slug) q))

/-- `Finder.MatchVersion`; the Boolean records whether the non-fatal
"no exact match" error was returned alongside the fallback. -/
def matchVersion (idx : SectionIndex) (userVersion : String) : String × Bool :=
  if userVersion = "" then (idx.latest, false)
  else if idx.hasVersion userVersion then (userVersion, false)
  else
    match splitOnSep '.' userVersion with
    | p0 :: p1 :: _ =>
      let majorMinor := p0 ++ "." ++ p1 ++ ".x"
      if idx.hasVersion majorMinor then (majorMinor, false)
      else (idx.latest, true)
    | _ => (idx.latest, true)

/-- The `<major>.<minor>.x` candidate `MatchVersion` constructs when the
input has at least two dot-separated components. -/
def majorMinorX (v : String) : String :=
  match splitOnSep '.' v with
  | p0 :: p1 :: _ => p0 ++ "." ++ p1 ++ ".x"
  | _ => v

/-! ## Tree builder (tree.go) -/

/-- `parentSlug` from tree.go: the slug up to its last `/`, or `""` when
there is none (character-level model of `strings.LastIndex`). -/
def parentChars : List Char → Option (List Char)
  | [] => none
  | c :: cs =>
    match parentChars cs with
    | some p => some (c :: p)
    | none => if c = '/' then some [] else none

/-- `parentSlug` from tree.go. -/
def parentSlug (slug : String) : String :=
  ((parentChars slug.data).map String.mk).getD ""

/-- `SectionNode` from tree.go (an inductive because the structure is
recursive through `children`). -/
inductive SectionNode where
  | mk (toSection : Section) (children : List SectionNode) (childCount : Nat)
      (hasChildren : Bool) (hasMoreChildren : Bool)
  deriving Repr

/-- The embedded Section of a node. -/
def SectionNode.toSection : SectionNode → Section
  | .mk s _ _ _ _ => s

/-- The nested children of a node (`nil` children in Go become `[]`). -/
def SectionNode.children : SectionNode → List SectionNode
  | .mk _ c _ _ _ => c

/-- `ChildCount`. -/
def SectionNode.childCount : SectionNode → Nat
  | .mk _ _ n _ _ => n

/-- `HasChildren`. -/
def SectionNode.hasChildren : SectionNode → Bool
  | .mk _ _ _ h _ => h

/-- `HasMoreChildren`. -/
def SectionNode.hasMoreChildren : SectionNode → Bool
  | .mk _ _ _ _ h => h

/-- Fuel-indexed form of `buildSectionNode` from tree.go; the fuel only
serves structural termination.  At the call in `buildSectionNode` the fuel
is `(maxDepth - currentDepth).toNat`, which is zero exactly when
`currentDepth ≥ maxDepth`, i.e. exactly when the source itself stops
recursing, so the zero-fuel branch coincides with the source's
no-recursion branch. -/
def buildSectionNodeFuel (childrenOf : String → List Section) (maxDepth : Int) :
    Nat → Int → Section → SectionNode
  | 0, currentDepth, s =>
    let cs := childrenOf s.slug
    SectionNode.mk s [] cs.length (decide (cs ≠ []))
      (decide (cs ≠ [] ∧ maxDepth ≤ currentDepth))
  | fuel + 1, currentDepth, s =>
    let cs := childrenOf s.slug
    if cs ≠ [] ∧ currentDepth < maxDepth then
      SectionNode.mk s
        (cs.map (buildSectionNodeFuel childrenOf maxDepth fuel (currentDepth + 1)))
        cs.length (decide (cs ≠ [])) (decide (cs ≠ [] ∧ maxDepth ≤ currentDepth))
    else
      SectionNode.mk s [] cs.length (decide (cs ≠ []))
        (decide (cs ≠ [] ∧ maxDepth ≤ currentDepth))

/-- `buildSectionNode` from tree.go.  `childrenOf` is the
`childrenByParent` map, modelled as the order-preserving filter it is
built as. -/
def buildSectionNode (childrenOf : String → List Section) (maxDepth currentDepth : Int)
    (s : Section) : SectionNode :=
  buildSectionNodeFuel childrenOf maxDepth (maxDepth - currentDepth).toNat currentDepth s

/-- `BuildSectionTree` from tree.go. -/
def BuildSectionTree (sections : List Section) (rootSlug : String) (depth : Int) :
    Except String (List SectionNode) :=
  if depth < 1 then .error "depth must be at least 1"
  else
    let childrenOf := fun p => sections.filter (fun s => parentSlug s.slug = p)
    if rootSlug ≠ "" ∧ sections.all (fun s => decide (s.slug ≠ rootSlug)) then
      .error ("root slug not found: " ++ rootSlug)
    else
      .ok ((childrenOf rootSlug).map (buildSectionNode childrenOf depth 1))

/-! ## Lemmas about the association-list maps -/

theorem mlookup_minsert_self {α : Type} (m : List (String × α)) (k : String) (v : α) :
    mlookup (minsert m k v) k = some v := by
  induction m with
  | nil => simp [minsert, mlookup]
  | cons kv m ih =>
    by_cases h : kv.1 = k
    · simp [minsert, h, mlookup]
    · simp [minsert, h, mlookup, ih]

theorem mlookup_minsert_ne {α : Type} (m : List (String × α)) (k k' : String) (v : α)
    (h : k ≠ k') : mlookup (minsert m k v) k' = mlookup m k' := by
  induction m with
  | nil => simp [minsert, mlookup, h]
  | cons kv m ih =>
    by_cases hk : kv.1 = k
    · simp [minsert, hk, mlookup, h]
    · simp [minsert, hk, mlookup, ih]

/-! ## Lemmas about alias registration (indexer.go 157-167) -/

theorem aliasStep_preserves (s : Section) (m : List (String × Section)) (a k : String)
    (v : Section) (h : mlookup m k = some v) : mlookup (aliasStep s m a) k = some v := by
  by_cases hc : cleanAlias a = ""
  · simp [aliasStep, hc, h]
  · by_cases hs : (mlookup m (cleanAlias a)).isSome
    · simp [aliasStep, hc, hs, h]
    · have hk : cleanAlias a ≠ k := by
        intro e
        rw [e, h] at hs
        simp at hs
      simp [aliasStep, hc, hs, mlookup_minsert_ne m (cleanAlias a) k s hk, h]

theorem foldl_aliasStep_preserves (s : Section) (l : List String) (k : String) (v : Section) :
    ∀ m, mlookup m k = some v → mlookup (l.foldl (aliasStep s) m) k = some v := by
  induction l with
  | nil => intro m h; exact h
  | cons a l ih => intro m h; exact ih _ (aliasStep_preserves s m a k v h)

theorem registerAliases_preserves (s : Section) (m : List (String × Section)) (k : String)
    (v : Section) (h : mlookup m k = some v) : mlookup (registerAliases m s) k = some v :=
  foldl_aliasStep_preserves s s.aliases k v m h

theorem aliasStep_lookup_cases (s : Section) (m : List (String × Section)) (a k : String) :
    mlookup (aliasStep s m a) k = mlookup m k ∨
      (mlookup m k = none ∧ mlookup (aliasStep s m a) k = some s) := by
  by_cases hc : cleanAlias a = ""
  · left; simp [aliasStep, hc]
  · by_cases hs : (mlookup m (cleanAlias a)).isSome
    · left; simp [aliasStep, hc, hs]
    · by_cases hk : cleanAlias a = k
      · right
        rw [hk] at hs
        have hnone : mlookup m k = none := Option.not_isSome_iff_eq_none.mp hs
        refine ⟨hnone, ?_⟩
        rw [hk] at hc
        simp [aliasStep, hc, hk, hnone, mlookup_minsert_self]
      · left
        simp [aliasStep, hc, hs, mlookup_minsert_ne m (cleanAlias a) k s hk]

theorem foldl_aliasStep_cases (s : Section) (l : List String) (k : String) :
    ∀ m, mlookup (l.foldl (aliasStep s) m) k = mlookup m k ∨
      (mlookup m k = none ∧ mlookup (l.foldl (aliasStep s) m) k = some s) := by
  induction l with
  | nil => intro m; left; rfl
  | cons a l ih =>
    intro m
    rcases aliasStep_lookup_cases s m a k with h | ⟨hnone, hsome⟩
    · rcases ih (aliasStep s m a) with h2 | ⟨h2n, h2s⟩
      · left; rw [List.foldl_cons, h2, h]
      · right; exact ⟨h ▸ h2n, h2s⟩
    · right
      exact ⟨hnone, foldl_aliasStep_preserves s l k s _ hsome⟩

theorem foldl_aliasStep_hit (s : Section) (l : List String) (k : String) (hk : k ≠ "") :
    ∀ m, (∃ a ∈ l, cleanAlias a = k) → (mlookup m k = none ∨ mlookup m k = some s) →
      mlookup (l.foldl (aliasStep s) m) k = some s := by
  induction l with
  | nil => intro m ha _; simp at ha
  | cons a l ih =>
    intro m ha hm
    by_cases hca : cleanAlias a = k
    · have h1 : mlookup (aliasStep s m a) k = some s := by
        rcases hm with hm | hm
        · simp [aliasStep, hca, hk, hm, mlookup_minsert_self]
        · simp [aliasStep, hca, hk, hm]
      exact foldl_aliasStep_preserves s l k s _ h1
    · have ha' : ∃ b ∈ l, cleanAlias b = k := by
        rcases ha with ⟨b, hb, hcb⟩
        rcases List.mem_cons.mp hb with rfl | hb'
        · exact absurd hcb hca
        · exact ⟨b, hb', hcb⟩
      rcases aliasStep_lookup_cases s m a k with h | ⟨hnone, hsome⟩
      · exact ih _ ha' (h ▸ hm)
      · exact foldl_aliasStep_preserves s l k s _ hsome

theorem foldl_aliasStep_none (s : Section) (l : List String) (k : String)
    (hali : ∀ a ∈ l, cleanAlias a ≠ k) :
    ∀ m, mlookup m k = none → mlookup (l.foldl (aliasStep s) m) k = none := by
  induction l with
  | nil => intro m h; exact h
  | cons a l ih =>
    intro m h
    have h1 : mlookup (aliasStep s m a) k = none := by
      by_cases hc : cleanAlias a = ""
      · simpa [aliasStep, hc] using h
      · by_cases hs : (mlookup m (cleanAlias a)).isSome
        · simpa [aliasStep, hc, hs] using h
        · simpa [aliasStep, hc, hs,
            mlookup_minsert_ne m (cleanAlias a) k s (hali a (List.mem_cons_self _ _))] using h
    exact ih (fun b hb => hali b (List.mem_cons_of_mem a hb)) _ h1

/-! ## Lemmas about the per-section slug registration -/

/-- The by-slug part of `indexSectionInto`. -/
def slugIndexStep (m : List (String × Section)) (s : Section) : List (String × Section) :=
  registerAliases (minsert m s.slug s) s

theorem foldl_indexSectionInto_fst (secs : List Section) :
    ∀ mp : List (String × Section) × List (String × Section),
      (secs.foldl indexSectionInto mp).1 = secs.foldl slugIndexStep mp.1 := by
  induction secs with
  | nil => intro mp; rfl
  | cons s secs ih => intro mp; exact ih (indexSectionInto mp s)

theorem slugIndexStep_self (m : List (String × Section)) (s : Section) :
    mlookup (slugIndexStep m s) s.slug = some s :=
  registerAliases_preserves s _ s.slug s (mlookup_minsert_self m s.slug s)

theorem slugIndexStep_preserves (m : List (String × Section)) (s : Section) (k : String)
    (v : Section) (hs : s.slug ≠ k) (h : mlookup m k = some v) :
    mlookup (slugIndexStep m s) k = some v :=
  registerAliases_preserves s _ k v ((mlookup_minsert_ne m s.slug k s hs) ▸ h)

theorem slugIndexStep_hit_alias (m : List (String × Section)) (s : Section) (k : String)
    (hk : k ≠ "") (ha : ∃ a ∈ s.aliases, cleanAlias a = k) (hm : mlookup m k = none) :
    mlookup (slugIndexStep m s) k = some s := by
  apply foldl_aliasStep_hit s s.aliases k hk _ ha
  by_cases hs : s.slug = k
  · right; rw [← hs]; exact mlookup_minsert_self m s.slug s
  · left; rw [mlookup_minsert_ne m s.slug k s hs]; exact hm

theorem slugIndexStep_none (m : List (String × Section)) (s : Section) (k : String)
    (hslug : s.slug ≠ k) (hali : ∀ a ∈ s.aliases, cleanAlias a ≠ k)
    (hm : mlookup m k = none) : mlookup (slugIndexStep m s) k = none :=
  foldl_aliasStep_none s s.aliases k hali _ ((mlookup_minsert_ne m s.slug k s hslug) ▸ hm)

theorem foldl_slugIndexStep_preserves (secs : List Section) (k : String) (v : Section)
    (hs : ∀ t ∈ secs, t.slug ≠ k) :
    ∀ m, mlookup m k = some v → mlookup (secs.foldl slugIndexStep m) k = some v := by
  induction secs with
  | nil => intro m h; exact h
  | cons s secs ih =>
    intro m h
    exact ih (fun t ht => hs t (List.mem_cons_of_mem s ht)) _
      (slugIndexStep_preserves m s k v (hs s (List.mem_cons_self _ _)) h)

theorem foldl_slugIndexStep_none (secs : List Section) (k : String)
    (hs : ∀ t ∈ secs, t.slug ≠ k)
    (hali : ∀ t ∈ secs, ∀ a ∈ t.aliases, cleanAlias a ≠ k) :
    ∀ m, mlookup m k = none → mlookup (secs.foldl slugIndexStep m) k = none := by
  induction secs with
  | nil => intro m h; exact h
  | cons s secs ih =>
    intro m h
    exact ih (fun t ht => hs t (List.mem_cons_of_mem s ht))
      (fun t ht => hali t (List.mem_cons_of_mem s ht)) _
      (slugIndexStep_none m s k (hs s (List.mem_cons_self _ _))
        (hali s (List.mem_cons_self _ _)) h)

theorem foldl_slugIndexStep_mem_nodup (secs : List Section)
    (hnd : (secs.map Section.slug).Nodup) (s : Section) (hmem : s ∈ secs) :
    ∀ m, mlookup (secs.foldl slugIndexStep m) s.slug = some s := by
  obtain ⟨l1, l2, rfl⟩ := List.append_of_mem hmem
  intro m
  rw [List.foldl_append, List.foldl_cons]
  have hnd2 : (s.slug :: l2.map Section.slug).Nodup := by
    have := hnd
    rw [List.map_append, List.map_cons] at this
    exact this.of_append_right
  apply foldl_slugIndexStep_preserves
  · intro t ht hts
    exact (List.nodup_cons.mp hnd2).1 (hts ▸ List.mem_map_of_mem Section.slug ht)
  · exact slugIndexStep_self _ s

/-! ## Lemmas about `buildRuntimeIndexes` (indexer.go 136-170) -/

theorem foldl_indexVersionStep_sections (l : List (String × List Section)) :
    ∀ acc, (l.foldl indexVersionStep acc).sections = acc.sections := by
  induction l with
  | nil => intro acc; rfl
  | cons e l ih => intro acc; rw [List.foldl_cons, ih]; rfl

theorem foldl_indexVersionStep_versions (l : List (String × List Section)) :
    ∀ acc, (l.foldl indexVersionStep acc).versions = acc.versions := by
  induction l with
  | nil => intro acc; rfl
  | cons e l ih => intro acc; rw [List.foldl_cons, ih]; rfl

theorem foldl_indexVersionStep_latest (l : List (String × List Section)) :
    ∀ acc, (l.foldl indexVersionStep acc).latest = acc.latest := by
  induction l with
  | nil => intro acc; rfl
  | cons e l ih => intro acc; rw [List.foldl_cons, ih]; rfl

theorem mkIndex_sections (versions : List String) (latest : String)
    (sections : List (String × List Section)) :
    (mkIndex versions latest sections).sections = sections :=
  foldl_indexVersionStep_sections sections _

theorem mkIndex_latest (versions : List String) (latest : String)
    (sections : List (String × List Section)) :
    (mkIndex versions latest sections).latest = latest :=
  foldl_indexVersionStep_latest sections _

theorem foldl_indexVersionStep_bySlug_frozen (l : List (String × List Section)) (v : String)
    (hv : ∀ e ∈ l, e.1 ≠ v) :
    ∀ acc, mlookup (l.foldl indexVersionStep acc).bySlug v = mlookup acc.bySlug v := by
  induction l with
  | nil => intro acc; rfl
  | cons e l ih =>
    intro acc
    rw [List.foldl_cons, ih (fun f hf => hv f (List.mem_cons_of_mem e hf))]
    simp [indexVersionStep,
      mlookup_minsert_ne acc.bySlug e.1 v _ (hv e (List.mem_cons_self _ _))]

theorem foldl_indexVersionStep_bySlug (v : String) (secs : List Section) :
    ∀ (l : List (String × List Section)) (acc : SectionIndex),
      (l.map Prod.fst).Nodup → mlookup l v = some secs →
      mlookup acc.bySlug v = none →
      mlookup (l.foldl indexVersionStep acc).bySlug v
        = some (secs.foldl slugIndexStep []) := by
  intro l
  induction l with
  | nil => intro acc _ h _; simp [mlookup] at h
  | cons e l ih =>
    intro acc hnd h hnone
    by_cases he : e.1 = v
    · have hsecs : e.2 = secs := by
        have : mlookup (e :: l) v = some e.2 := by
          obtain ⟨k, val⟩ := e
          simp only at he
          simp [mlookup, he]
        rw [this] at h
        exact Option.some_inj.mp h
      have hkeys : ∀ f ∈ l, f.1 ≠ v := by
        intro f hf hfv
        have : e.1 ∈ l.map Prod.fst := by
          rw [he, ← hfv]
          exact List.mem_map_of_mem Prod.fst hf
        exact (List.nodup_cons.mp (by simpa using hnd)).1 this
      rw [List.foldl_cons, foldl_indexVersionStep_bySlug_frozen l v hkeys]
      simp only [indexVersionStep, he, hnone]
      rw [mlookup_minsert_self]
      rw [foldl_indexSectionInto_fst]
      simp [hnone, hsecs]
    · have htail : mlookup l v = some secs := by
        obtain ⟨k, val⟩ := e
        simp only at he
        simpa [mlookup, he] using h
      rw [List.foldl_cons]
      apply ih _ (by simpa using (List.nodup_cons.mp (by simpa using hnd)).2) htail
      simp [indexVersionStep, mlookup_minsert_ne acc.bySlug e.1 v _ he, hnone]

theorem mkIndex_bySlug_lookup (versions : List String) (latest : String)
    (sections : List (String × List Section)) (v : String) (secs : List Section)
    (hnd : (sections.map Prod.fst).Nodup) (h : mlookup sections v = some secs) :
    mlookup (mkIndex versions latest sections).bySlug v
      = some (secs.foldl slugIndexStep []) :=
  foldl_indexVersionStep_bySlug v secs sections _ hnd h rfl

/-- Reduction of `getBySlug` on a freshly built index with distinct version
keys: it is exactly a lookup in the per-version slug map built by folding
`slugIndexStep` over that version's section list. -/
theorem getBySlug_mkIndex (versions : List String) (latest : String)
    (sections : List (String × List Section)) (v k : String) (secs : List Section)
    (hnd : (sections.map Prod.fst).Nodup) (h : mlookup sections v = some secs)
    (hv : v ≠ "") :
    getBySlug (mkIndex versions latest sections) k v
      = match mlookup (secs.foldl slugIndexStep []) k with
        | some s => .ok s
        | none => .error ("section not found: " ++ k) := by
  have hsec := mkIndex_sections versions latest sections
  have hby := mkIndex_bySlug_lookup versions latest sections v secs hnd h
  simp only [getBySlug, resolveVersion, hv, if_false, SectionIndex.hasVersion, hsec, h,
    Option.isSome_some, hby]
  cases mlookup (secs.foldl slugIndexStep []) k <;> rfl

/-! ## Concrete fixtures used by counterexamples and witnesses -/

/-- Frontmatter fixture with title `A`. -/
def fmTitleA : Frontmatter := ⟨"A", "", 0, [], ""⟩

/-- Frontmatter fixture with title `B`. -/
def fmTitleB : Frontmatter := ⟨"B", "", 0, [], ""⟩

/-- A built index over a corpus containing both `foo.md` and
`foo/_index.md`, whose slugs collide on `foo`. -/
def dupSlugIdx : SectionIndex :=
  buildSectionIndexModel "/docs" "v1" [("foo.md", fmTitleA), ("foo/_index.md", fmTitleB)]

/-! ## Claim C2 -/

/-- Counterexample to C2 as stated: on the index built from `foo.md` and
`foo/_index.md`, the section with slug `foo` and relPath `foo.md` is in
the version's section list, but `GetBySlug("foo", "v1")` returns the
section with relPath `foo/_index.md` (the later primary registration
overwrote the earlier one), so the returned relPath differs. -/
theorem c2_counterexample :
    extractSection "/docs" "foo.md" fmTitleA ∈ dupSlugIdx.getVersion "v1"
    ∧ (extractSection "/docs" "foo.md" fmTitleA).slug = "foo"
    ∧ (extractSection "/docs" "foo.md" fmTitleA).relPath = "foo.md"
    ∧ (getBySlug dupSlugIdx "foo" "v1").toOption.map Section.relPath
        = some "foo/_index.md"
    ∧ ("foo/_index.md" : String) ≠ "foo.md" := by
  refine ⟨by decide, by decide, by decide, by decide, by decide⟩

/-- C2 (amended): in a built index whose version keys are distinct, for
every version `v` it contains and every Section `s` of that version,
provided the primary slugs within that version's section list are pairwise
distinct, `GetBySlug(s.slug, v)` succeeds and returns a Section whose
relPath equals `s.relPath`. -/
theorem c2_primary_slug_resolvable (versions : List String) (latest : String)
    (sections : List (String × List Section)) (v : String) (secs : List Section)
    (hnd : (sections.map Prod.fst).Nodup) (h : mlookup sections v = some secs)
    (hv : v ≠ "") (hslugs : (secs.map Section.slug).Nodup)
    (s : Section) (hmem : s ∈ secs) :
    ∃ t : Section, getBySlug (mkIndex versions latest sections) s.slug v = .ok t
      ∧ t.relPath = s.relPath := by
  refine ⟨s, ?_, rfl⟩
  rw [getBySlug_mkIndex versions latest sections v s.slug secs hnd h hv]
  rw [foldl_slugIndexStep_mem_nodup secs hslugs s hmem []]

/-- Witness for the amended C2 at a concrete two-section index. -/
theorem c2_witness :
    ∃ t : Section,
      getBySlug (mkIndex ["v1"] "v1"
          [("v1", [extractSection "/docs" "foo.md" fmTitleA,
                   extractSection "/docs" "bar.md" fmTitleB])])
        (extractSection "/docs" "bar.md" fmTitleB).slug "v1" = .ok t
      ∧ t.relPath = (extractSection "/docs" "bar.md" fmTitleB).relPath :=
  c2_primary_slug_resolvable ["v1"] "v1"
    [("v1", [extractSection "/docs" "foo.md" fmTitleA,
             extractSection "/docs" "bar.md" fmTitleB])]
    "v1"
    [extractSection "/docs" "foo.md" fmTitleA,
     extractSection "/docs" "bar.md" fmTitleB]
    (by decide) (by decide) (by decide) (by decide) _ (by decide)

/-! ## Claim C3 -/

/-- C3: alias first-wins.  If Section `A` of version `v` declares alias
`x` normalizing to `x'`, no section's primary slug other than possibly
`A`'s own equals `x'`, and no alias registered before `A`'s normalizes to
`x'`, then `GetBySlug(x', v)` returns `A`; moreover an alias registration
never overwrites an existing entry of the by-slug map (so a later
colliding alias is dropped and the earlier registrant still wins). -/
theorem c3_alias_first_wins (versions : List String) (latest : String)
    (sections : List (String × List Section)) (v x x' : String)
    (pre post : List Section) (A : Section) (secs : List Section)
    (hsecs : secs = pre ++ A :: post)
    (hnd : (sections.map Prod.fst).Nodup) (h : mlookup sections v = some secs)
    (hv : v ≠ "")
    (hx : x ∈ A.aliases) (hc : cleanAlias x = x') (hne : x' ≠ "")
    (hpre_slug : ∀ t ∈ pre, t.slug ≠ x') (hpost_slug : ∀ t ∈ post, t.slug ≠ x')
    (hpre_alias : ∀ t ∈ pre, ∀ a ∈ t.aliases, cleanAlias a ≠ x') :
    getBySlug (mkIndex versions latest sections) x' v = .ok A
    ∧ (∀ (m : List (String × Section)) (s : Section) (k : String) (w : Section),
        mlookup m k = some w → mlookup (registerAliases m s) k = some w) := by
  constructor
  · rw [getBySlug_mkIndex versions latest sections v x' secs hnd h hv, hsecs,
      List.foldl_append, List.foldl_cons]
    have h0 : mlookup (pre.foldl slugIndexStep []) x' = none :=
      foldl_slugIndexStep_none pre x' hpre_slug hpre_alias [] rfl
    have hA : mlookup (slugIndexStep (pre.foldl slugIndexStep []) A) x' = some A := by
      by_cases hAs : A.slug = x'
      · rw [← hAs]; exact slugIndexStep_self _ A
      · exact slugIndexStep_hit_alias _ A x' hne ⟨x, hx, hc⟩ h0
    rw [foldl_slugIndexStep_preserves post x' A hpost_slug _ hA]
  · intro m s k w hw
    exact registerAliases_preserves s m k w hw

/-- Section fixture declaring an alias. -/
def aliasedSec : Section :=
  { extractSection "/docs" "guides/new-home.md" fmTitleA with
    aliases := ["/docs/k6/old-home"] }

/-- Witness for C3: the alias `/docs/k6/old-home` of `aliasedSec`
normalizes to `old-home` and resolves to `aliasedSec` in a three-section
version. -/
theorem c3_witness :
    getBySlug (mkIndex ["v1"] "v1"
        [("v1", [extractSection "/docs" "a.md" fmTitleA, aliasedSec,
                 extractSection "/docs" "b.md" fmTitleB])])
      "old-home" "v1" = .ok aliasedSec :=
  (c3_alias_first_wins ["v1"] "v1"
    [("v1", [extractSection "/docs" "a.md" fmTitleA, aliasedSec,
             extractSection "/docs" "b.md" fmTitleB])]
    "v1" "/docs/k6/old-home" "old-home"
    [extractSection "/docs" "a.md" fmTitleA]
    [extractSection "/docs" "b.md" fmTitleB]
    aliasedSec _ rfl (by decide) (by decide) (by decide) (by decide) (by decide)
    (by decide) (by decide) (by decide) (by decide)).1

/-! ## Claim C9 -/

/-- C9: primary slugs are written to the by-slug map unconditionally while
aliases are written only when the key is unclaimed; consequently when an
earlier Section `A` registers alias `x` (normalizing to `x'`) and a later
Section `B` has primary slug `x'`, `GetBySlug(x', v)` returns `B` — the
primary registration silently displaces the earlier alias. -/
theorem c9_later_primary_displaces_alias (versions : List String) (latest : String)
    (sections : List (String × List Section)) (v x x' : String)
    (l1 l2 l3 : List Section) (A B : Section) (secs : List Section)
    (hsecs : secs = (l1 ++ A :: l2) ++ B :: l3)
    (hnd : (sections.map Prod.fst).Nodup) (h : mlookup sections v = some secs)
    (hv : v ≠ "")
    (hx : x ∈ A.aliases) (hc : cleanAlias x = x') (hne : x' ≠ "")
    (hB : B.slug = x') (hl3 : ∀ t ∈ l3, t.slug ≠ x') :
    getBySlug (mkIndex versions latest sections) x' v = .ok B
    ∧ (∀ (m : List (String × Section)) (s : Section),
        mlookup (slugIndexStep m s) s.slug = some s) := by
  constructor
  · rw [getBySlug_mkIndex versions latest sections v x' secs hnd h hv, hsecs,
      List.foldl_append, List.foldl_cons]
    have hBstep : mlookup (slugIndexStep ((l1 ++ A :: l2).foldl slugIndexStep []) B) x'
        = some B := by
      rw [← hB]; exact slugIndexStep_self _ B
    rw [foldl_slugIndexStep_preserves l3 x' B hl3 _ hBstep]
  · intro m s
    exact slugIndexStep_self m s

/-- Witness for C9: `aliasedSec` declares alias `old-home`, and a later
section whose primary slug is `old-home` displaces it. -/
theorem c9_witness :
    getBySlug (mkIndex ["v1"] "v1"
        [("v1", [aliasedSec, extractSection "/docs" "old-home.md" fmTitleB])])
      "old-home" "v1" = .ok (extractSection "/docs" "old-home.md" fmTitleB) :=
  (c9_later_primary_displaces_alias ["v1"] "v1"
    [("v1", [aliasedSec, extractSection "/docs" "old-home.md" fmTitleB])]
    "v1" "/docs/k6/old-home" "old-home" [] [] []
    aliasedSec (extractSection "/docs" "old-home.md" fmTitleB)
    _ rfl (by decide) (by decide) (by decide) (by decide) (by decide) (by decide)
    (by decide) (by decide)).1

/-! ## Claim C4 -/

/-- C4: `MatchVersion` resolution.  The empty string resolves to latest
with no error; a non-empty string exactly equal to an indexed version
resolves to itself with no error; otherwise a string with at least two
dot-separated components resolves to `<major>.<minor>.x` with no error
when that candidate is indexed; in every remaining case it resolves to
latest while reporting the non-exact-match condition. -/
theorem c4_matchVersion_resolution (idx : SectionIndex) :
    matchVersion idx "" = (idx.latest, false)
    ∧ (∀ v, v ≠ "" → idx.hasVersion v = true → matchVersion idx v = (v, false))
    ∧ (∀ v, v ≠ "" → idx.hasVersion v = false → 2 ≤ (splitOnSep '.' v).length →
        idx.hasVersion (majorMinorX v) = true →
        matchVersion idx v = (majorMinorX v, false))
    ∧ (∀ v, v ≠ "" → idx.hasVersion v = false →
        (2 ≤ (splitOnSep '.' v).length → idx.hasVersion (majorMinorX v) = false) →
        matchVersion idx v = (idx.latest, true)) := by
  refine ⟨by simp [matchVersion], ?_, ?_, ?_⟩
  · intro v hv h
    simp [matchVersion, hv, h]
  · intro v hv h hlen hmm
    rcases hsp : splitOnSep '.' v with _ | ⟨p0, _ | ⟨p1, rest⟩⟩
    · rw [hsp] at hlen; simp at hlen
    · rw [hsp] at hlen; simp at hlen
    · have hmmx : majorMinorX v = p0 ++ "." ++ p1 ++ ".x" := by
        simp [majorMinorX, hsp]
      rw [hmmx] at hmm
      simp [matchVersion, hv, h, hsp, hmm, hmmx]
  · intro v hv h hno
    rcases hsp : splitOnSep '.' v with _ | ⟨p0, _ | ⟨p1, rest⟩⟩
    · simp [matchVersion, hv, h, hsp]
    · simp [matchVersion, hv, h, hsp]
    · have hlen : 2 ≤ (splitOnSep '.' v).length := by
        rw [hsp]; simp
      have hmmx : majorMinorX v = p0 ++ "." ++ p1 ++ ".x" := by
        simp [majorMinorX, hsp]
      have hfail := hno hlen
      rw [hmmx] at hfail
      simp [matchVersion, hv, h, hsp, hfail]

/-- Fixture index with the single docs version `v1.4.x`. -/
def v14Idx : SectionIndex := mkIndex ["v1.4.x"] "v1.4.x" [("v1.4.x", [])]

/-- Witness for C4: `v1.4.0` falls back to the indexed `v1.4.x` with no
error. -/
theorem c4_witness :
    matchVersion v14Idx "v1.4.0" = (majorMinorX "v1.4.0", false)
    ∧ majorMinorX "v1.4.0" = "v1.4.x" :=
  ⟨(c4_matchVersion_resolution v14Idx).2.2.1 "v1.4.0" (by decide) (by decide)
    (by decide) (by decide), by decide⟩

/-! ## Claim C10 -/

theorem strContains_empty_query (t : String) : strContains t "" = true := by
  show subOccurs "".data t.data = true
  have hd : ("" : String).data = [] := rfl
  rw [hd]
  induction t.data with
  | nil => rfl
  | cons c cs ih => simp [subOccurs, List.isPrefixOf]

/-- C10: for every index and version argument whose resolution is indexed,
`Search("", v)` succeeds and returns every section of the resolved version
in built order, because the empty query is a substring of every title,
description and slug. -/
theorem c10_empty_search_returns_all (idx : SectionIndex) (v : String)
    (h : idx.hasVersion (resolveVersion idx v) = true) :
    search idx "" v = .ok (idx.getVersion (resolveVersion idx v)) := by
  simp only [search, h]
  simp [strContains_empty_query, List.filter_eq_self]
  intro a _
  left; left
  have hq : strToLower "" = "" := rfl
  rw [hq]
  exact strContains_empty_query _

/-- Witness for C10 on a concrete two-section index. -/
theorem c10_witness :
    search dupSlugIdx "" "v1" = .ok (dupSlugIdx.getVersion "v1") :=
  c10_empty_search_returns_all dupSlugIdx "v1" (by decide)

/-! ## Claim C5 -/

/-- C5: depth-1 contract of the tree builder.  For every section list,
`BuildTree(sections, "", 1)` succeeds, no returned node carries a nested
children list, and every returned node whose slug has at least one child
section in the input list has its has-more-children flag set. -/
theorem c5_depth1_contract (sections : List Section) :
    (∃ nodes, BuildSectionTree sections "" 1 = .ok nodes)
    ∧ ∀ nodes, BuildSectionTree sections "" 1 = .ok nodes →
        ∀ n ∈ nodes, n.children = []
          ∧ (sections.filter (fun c => parentSlug c.slug = n.toSection.slug) ≠ [] →
              n.hasMoreChildren = true) := by
  have hrun : BuildSectionTree sections "" 1
      = .ok ((sections.filter (fun s => parentSlug s.slug = "")).map
          (buildSectionNode (fun p => sections.filter (fun s => parentSlug s.slug = p)) 1 1)) := by
    simp [BuildSectionTree]
  refine ⟨⟨_, hrun⟩, ?_⟩
  intro nodes hnodes n hn
  rw [hrun] at hnodes
  have hmap := Except.ok.inj hnodes
  rw [← hmap] at hn
  obtain ⟨s, hs, rfl⟩ := List.mem_map.mp hn
  have hnode : buildSectionNode
      (fun p => sections.filter (fun s => parentSlug s.slug = p)) 1 1 s
      = SectionNode.mk s [] (sections.filter (fun c => parentSlug c.slug = s.slug)).length
          (decide (sections.filter (fun c => parentSlug c.slug = s.slug) ≠ []))
          (decide (sections.filter (fun c => parentSlug c.slug = s.slug) ≠ []
            ∧ (1 : Int) ≤ 1)) := rfl
  rw [hnode]
  refine ⟨rfl, ?_⟩
  intro hne
  simp [SectionNode.hasMoreChildren, SectionNode.toSection] at hne ⊢
  exact hne

/-- Two-section fixture: `a.md` and `a/b.md`. -/
def c5Secs : List Section :=
  [extractSection "/d" "a.md" fmTitleA, extractSection "/d" "a/b.md" fmTitleB]

/-- The nodes `BuildSectionTree c5Secs "" 1` produces. -/
def c5Nodes : List SectionNode :=
  (c5Secs.filter (fun s => parentSlug s.slug = "")).map
    (buildSectionNode (fun p => c5Secs.filter (fun s => parentSlug s.slug = p)) 1 1)

/-- The single root node of that tree. -/
def c5Node : SectionNode :=
  buildSectionNode (fun p => c5Secs.filter (fun s => parentSlug s.slug = p)) 1 1
    (extractSection "/d" "a.md" fmTitleA)

/-- Witness for C5 at the concrete fixture. -/
theorem c5_witness :
    c5Node.children = []
    ∧ (c5Secs.filter (fun c => parentSlug c.slug = c5Node.toSection.slug) ≠ [] →
        c5Node.hasMoreChildren = true) :=
  (c5_depth1_contract c5Secs).2 c5Nodes rfl c5Node (List.Mem.head _)

/-! ## Order lemmas for the sort comparator -/

theorem charListLt_asymm : ∀ x y : List Char,
    charListLt x y = true → charListLt y x = false := by
  intro x
  induction x with
  | nil =>
    intro y h
    cases y with
    | nil => simp [charListLt] at h
    | cons b bs => simp [charListLt]
  | cons a as ih =>
    intro y h
    cases y with
    | nil => simp [charListLt] at h
    | cons b bs =>
      simp only [charListLt] at h ⊢
      by_cases hab : a = b
      · subst hab
        simp at h ⊢
        exact ih bs h
      · have hba : ¬ b = a := fun e => hab e.symm
        simp [hab] at h
        simp [hba]
        omega

theorem charListLt_trans : ∀ x y z : List Char,
    charListLt x y = true → charListLt y z = true → charListLt x z = true := by
  intro x
  induction x with
  | nil =>
    intro y z hxy hyz
    cases y with
    | nil => simp [charListLt] at hxy
    | cons b bs =>
      cases z with
      | nil => simp [charListLt] at hyz
      | cons c cs => simp [charListLt]
  | cons a as ih =>
    intro y z hxy hyz
    cases y with
    | nil => simp [charListLt] at hxy
    | cons b bs =>
      cases z with
      | nil => simp [charListLt] at hyz
      | cons c cs =>
        simp only [charListLt] at hxy hyz ⊢
        by_cases hab : a = b
        · subst hab
          by_cases hbc : a = c
          · subst hbc
            simp at hxy hyz ⊢
            exact ih bs cs hxy hyz
          · simp [hbc] at hyz ⊢
            exact hyz
        · by_cases hbc : b = c
          · subst hbc
            simp [hab] at hxy ⊢
            exact hxy
          · simp [hab] at hxy
            simp [hbc] at hyz
            by_cases hac : a = c
            · subst hac
              omega
            · simp [hac]
              omega

theorem charListLt_eq_of_not : ∀ x y : List Char,
    charListLt x y = false → charListLt y x = false → x = y := by
  intro x
  induction x with
  | nil =>
    intro y hxy _
    cases y with
    | nil => rfl
    | cons b bs => simp [charListLt] at hxy
  | cons a as ih =>
    intro y hxy hyx
    cases y with
    | nil => simp [charListLt] at hyx
    | cons b bs =>
      simp only [charListLt] at hxy hyx
      by_cases hab : a = b
      · subst hab
        simp at hxy hyx
        rw [ih bs hxy hyx]
      · have hba : ¬ b = a := fun e => hab e.symm
        simp [hab] at hxy
        simp [hba] at hyx
        have : a.val.toNat = b.val.toNat := by omega
        exact absurd (Char.ext (UInt32.toNat.inj this)) hab

theorem charListLt_not_trans (a b c : List Char)
    (h1 : charListLt b a = false) (h2 : charListLt c b = false) :
    charListLt c a = false := by
  cases hca : charListLt c a
  · rfl
  · exfalso
    cases hab : charListLt a b
    · cases hba : charListLt b a
      · have := charListLt_eq_of_not a b hab hba
        subst this
        rw [hca] at h2
        simp at h2
      · rw [hba] at h1
        simp at h1
    · have := charListLt_trans c a b hca hab
      rw [this] at h2
      simp at h2

/-- `sectionOrd a b` unfolded: `a` weighs strictly less, or the weights
are equal and `a`'s title does not come strictly after `b`'s. -/
theorem sectionOrd_iff (a b : Section) :
    sectionOrd a b ↔ (a.weight < b.weight
      ∨ (a.weight = b.weight ∧ charListLt b.title.data a.title.data = false)) := by
  unfold sectionOrd sectionLess strLt
  constructor
  · intro h
    by_cases hw : b.weight ≠ a.weight
    · rw [if_pos hw] at h
      left
      have := of_decide_eq_false h
      omega
    · rw [if_neg hw] at h
      right
      refine ⟨by omega, h⟩
  · intro h
    by_cases hw : b.weight ≠ a.weight
    · rw [if_pos hw]
      rcases h with h | ⟨he, _⟩
      · exact decide_eq_false (by omega)
      · exact absurd he.symm hw
    · rw [if_neg hw]
      rcases h with h | ⟨he, ht⟩
      · exfalso; omega
      · exact ht

instance : IsTotal Section sectionOrd := by
  constructor
  intro a b
  rw [sectionOrd_iff, sectionOrd_iff]
  cases hca : charListLt b.title.data a.title.data
  · by_cases hw : a.weight < b.weight
    · left; left; exact hw
    · by_cases he : a.weight = b.weight
      · left; right; exact ⟨he, rfl⟩
      · right; left; omega
  · have := charListLt_asymm _ _ hca
    by_cases hw : b.weight < a.weight
    · right; left; exact hw
    · by_cases he : a.weight = b.weight
      · right; right; exact ⟨he.symm, this⟩
      · left; left; omega

instance : IsTrans Section sectionOrd := by
  constructor
  intro a b c hab hbc
  rw [sectionOrd_iff] at hab hbc ⊢
  rcases hab with hw | ⟨he, ht⟩
  · rcases hbc with hw2 | ⟨he2, _⟩
    · left; omega
    · left; omega
  · rcases hbc with hw2 | ⟨he2, ht2⟩
    · left; omega
    · right
      exact ⟨by omega, charListLt_not_trans a.title.data b.title.data c.title.data ht ht2⟩

theorem sorted_sortSections (l : List Section) :
    List.Sorted sectionOrd (sortSections l) :=
  List.sorted_insertionSort sectionOrd l

/-! ## Claim C6 -/

theorem mlookup_map_sortSections (l : List (String × List (String × Frontmatter)))
    (root v : String) (secs : List Section)
    (h : mlookup (l.map (fun vf =>
        (vf.1, sortSections ((vf.2.filter (fun f => strEndsWith ".md" f.1)).map
          (fun f => extractSection (root ++ "/" ++ vf.1) f.1 f.2))))) v = some secs) :
    ∃ base, secs = sortSections base := by
  induction l with
  | nil => simp [mlookup] at h
  | cons vf l ih =>
    rw [List.map_cons] at h
    by_cases he : vf.1 = v
    · rw [mlookup, if_pos he] at h
      exact ⟨_, (Option.some_inj.mp h).symm⟩
    · rw [mlookup, if_neg he] at h
      exact ih h

theorem buildSectionNode_toSection (childrenOf : String → List Section)
    (maxDepth currentDepth : Int) (s : Section) :
    (buildSectionNode childrenOf maxDepth currentDepth s).toSection = s := by
  unfold buildSectionNode
  cases (maxDepth - currentDepth).toNat with
  | zero => rfl
  | succ n =>
    by_cases h : childrenOf s.slug ≠ [] ∧ currentDepth < maxDepth
    · simp [buildSectionNodeFuel, h, SectionNode.toSection]
    · simp [buildSectionNodeFuel, h, SectionNode.toSection]

/-- C6: canonical sibling order.  In an index built by
`BuildMultiVersionIndex`, each version's section list is sorted by
ascending weight with ties broken by ascending title; `GetAll` returns
that list as built; any two sections appearing in that relative order keep
it through the `GetByCategory` filter when they share the category, and
through the tree-builder's sibling list when they share a parent (the
tree's node list for a root is exactly that sibling list). -/
theorem c6_canonical_sibling_order (docsRootPath : String)
    (versionFiles : List (String × List (String × Frontmatter)))
    (idx : SectionIndex)
    (hbuild : buildMultiVersionIndexModel docsRootPath versionFiles = .ok idx)
    (v : String) (secs : List Section) (hv : mlookup idx.sections v = some secs)
    (hvne : v ≠ "") :
    List.Sorted sectionOrd secs
    ∧ getAll idx v = .ok secs
    ∧ (∀ a b, [a, b].Sublist secs → ∀ cat res, a.category = cat → b.category = cat →
        getByCategory idx cat v = .ok res → [a, b].Sublist res)
    ∧ (∀ a b p, [a, b].Sublist secs → parentSlug a.slug = p → parentSlug b.slug = p →
        [a, b].Sublist (secs.filter (fun s => parentSlug s.slug = p)))
    ∧ (∀ rootSlug d nodes, BuildSectionTree secs rootSlug d = .ok nodes →
        nodes.map SectionNode.toSection
          = secs.filter (fun s => parentSlug s.slug = rootSlug)) := by
  have hsorted : List.Sorted sectionOrd secs := by
    unfold buildMultiVersionIndexModel at hbuild
    split at hbuild
    · exact absurd hbuild (by simp)
    · have hidx := Except.ok.inj hbuild
      rw [← hidx, mkIndex_sections] at hv
      obtain ⟨base, hbase⟩ := mlookup_map_sortSections versionFiles docsRootPath v secs hv
      rw [hbase]
      exact sorted_sortSections base
  have hres : resolveVersion idx v = v := by simp [resolveVersion, hvne]
  have hhas : idx.hasVersion v = true := by simp [SectionIndex.hasVersion, hv]
  have hget : idx.getVersion v = secs := by simp [SectionIndex.getVersion, hv]
  refine ⟨hsorted, ?_, ?_, ?_, ?_⟩
  · simp [getAll, hres, hhas, hget]
  · intro a b hab cat res hac hbc hcat
    have : res = secs.filter (fun s => decide (s.category = cat)) := by
      simp [getByCategory, hres, hhas, hget] at hcat
      exact hcat.symm
    rw [this]
    have := List.Sublist.filter (fun s => decide (s.category = cat)) hab
    simpa [hac, hbc] using this
  · intro a b p hab hap hbp
    have := List.Sublist.filter (fun s => decide (parentSlug s.slug = p)) hab
    simpa [hap, hbp] using this
  · intro rootSlug d nodes htree
    unfold BuildSectionTree at htree
    split at htree
    · exact absurd htree (by simp)
    · split at htree
      · exact absurd htree (by simp)
      · have := Except.ok.inj htree
        rw [← this, List.map_map]
        have : (SectionNode.toSection ∘ buildSectionNode
            (fun p => secs.filter (fun s => parentSlug s.slug = p)) d 1) = id := by
          funext s
          exact buildSectionNode_toSection _ d 1 s
        rw [this, List.map_id]

/-- Version-file fixture for C6: two root files given in reverse title
order. -/
def c6VF : List (String × List (String × Frontmatter)) :=
  [("v1", [("b.md", fmTitleB), ("a.md", fmTitleA)])]

/-- The section list C6's build produces for `v1`. -/
def c6SortedSecs : List Section :=
  sortSections [extractSection "/docs/v1" "b.md" fmTitleB,
                extractSection "/docs/v1" "a.md" fmTitleA]

/-- The index C6's build produces. -/
def c6Idx : SectionIndex := mkIndex ["v1"] "v1" [("v1", c6SortedSecs)]

/-! ## Claim C1 -/

/-- Clearing the non-serialized `path` field (the effect a JSON round trip
has on one Section). -/
def erasePath (s : Section) : Section := { s with path := "" }

theorem deserialize_serialize (s : Section) :
    SerializedSection.deserialize (Section.serialize s) = erasePath s := rfl

/-- Value-mapping of an association map. -/
def mmapV {α β : Type} (f : α → β) (m : List (String × α)) : List (String × β) :=
  m.map (fun kv => (kv.1, f kv.2))

theorem mlookup_mmapV {α β : Type} (f : α → β) (m : List (String × α)) (k : String) :
    mlookup (mmapV f m) k = (mlookup m k).map f := by
  induction m with
  | nil => rfl
  | cons kv m ih =>
    by_cases h : kv.1 = k
    · simp [mmapV, mlookup, h]
    · simpa [mmapV, mlookup, h] using ih

theorem minsert_mmapV {α β : Type} (f : α → β) (m : List (String × α)) (k : String) (v : α) :
    minsert (mmapV f m) k (f v) = mmapV f (minsert m k v) := by
  induction m with
  | nil => rfl
  | cons kv m ih =>
    obtain ⟨k', v'⟩ := kv
    by_cases h : k' = k
    · simp [mmapV, minsert, h]
    · have h1 : mmapV f ((k', v') :: m) = (k', f v') :: mmapV f m := rfl
      have h2 : minsert ((k', v') :: m) k v = (k', v') :: minsert m k v := by
        simp [minsert, h]
      have h3 : minsert ((k', f v') :: mmapV f m) k (f v)
          = (k', f v') :: minsert (mmapV f m) k (f v) := by
        simp [minsert, h]
      rw [h1, h3, ih, h2]
      rfl

theorem getD_map_nil {α β : Type} (f : List α → List β) (o : Option (List α)) :
    (o.map f).getD [] = f (o.getD []) ∨ (o = none ∧ (o.map f).getD [] = []) := by
  cases o
  · right; exact ⟨rfl, rfl⟩
  · left; rfl

theorem aliasStep_erase (s : Section) (m : List (String × Section)) (a : String) :
    aliasStep (erasePath s) (mmapV erasePath m) a = mmapV erasePath (aliasStep s m a) := by
  unfold aliasStep
  by_cases hc : cleanAlias a = ""
  · simp [hc]
  · rw [if_pos hc, if_pos hc, mlookup_mmapV]
    cases hm : mlookup m (cleanAlias a) with
    | none => simp [minsert_mmapV]
    | some w => simp

theorem foldl_aliasStep_erase (s : Section) (l : List String) :
    ∀ m, l.foldl (aliasStep (erasePath s)) (mmapV erasePath m)
      = mmapV erasePath (l.foldl (aliasStep s) m) := by
  induction l with
  | nil => intro m; rfl
  | cons a l ih =>
    intro m
    rw [List.foldl_cons, List.foldl_cons, aliasStep_erase, ih]

theorem indexSectionInto_erase (m p : List (String × Section)) (s : Section) :
    indexSectionInto (mmapV erasePath m, mmapV erasePath p) (erasePath s)
      = (mmapV erasePath (registerAliases (minsert m s.slug s) s),
         mmapV erasePath (minsert p s.relPath s)) := by
  show (registerAliases (minsert (mmapV erasePath m) (erasePath s).slug (erasePath s))
          (erasePath s),
        minsert (mmapV erasePath p) (erasePath s).relPath (erasePath s))
      = (mmapV erasePath (registerAliases (minsert m s.slug s) s),
         mmapV erasePath (minsert p s.relPath s))
  have hslug : (erasePath s).slug = s.slug := rfl
  have hrel : (erasePath s).relPath = s.relPath := rfl
  rw [hslug, hrel, minsert_mmapV, minsert_mmapV]
  refine congrArg (fun x => (x, mmapV erasePath (minsert p s.relPath s))) ?_
  show s.aliases.foldl (aliasStep (erasePath s)) (mmapV erasePath (minsert m s.slug s))
      = mmapV erasePath (s.aliases.foldl (aliasStep s) (minsert m s.slug s))
  exact foldl_aliasStep_erase s s.aliases (minsert m s.slug s)

theorem foldl_indexSectionInto_erase (secs : List Section) :
    ∀ (m p : List (String × Section)),
      (secs.map erasePath).foldl indexSectionInto (mmapV erasePath m, mmapV erasePath p)
        = (mmapV erasePath (secs.foldl indexSectionInto (m, p)).1,
           mmapV erasePath (secs.foldl indexSectionInto (m, p)).2) := by
  induction secs with
  | nil => intro m p; rfl
  | cons s secs ih =>
    intro m p
    rw [List.map_cons, List.foldl_cons, List.foldl_cons, indexSectionInto_erase]
    have hstep : indexSectionInto (m, p) s
        = (registerAliases (minsert m s.slug s) s, minsert p s.relPath s) := rfl
    rw [hstep]
    exact ih (registerAliases (minsert m s.slug s) s) (minsert p s.relPath s)

/-- Erasing `path` everywhere in an index (what a JSON round trip does to
a built index, as proved below). -/
def erasePathIdx (idx : SectionIndex) : SectionIndex :=
  ⟨idx.versions, idx.latest,
   mmapV (List.map erasePath) idx.sections,
   mmapV (mmapV erasePath) idx.bySlug,
   mmapV (mmapV erasePath) idx.byPath⟩

theorem indexVersionStep_erase (acc : SectionIndex) (vs : String × List Section) :
    indexVersionStep (erasePathIdx acc) (vs.1, vs.2.map erasePath)
      = erasePathIdx (indexVersionStep acc vs) := by
  unfold indexVersionStep erasePathIdx
  simp only [mlookup_mmapV]
  have hbs : ((mlookup acc.bySlug vs.1).map (mmapV erasePath)).getD []
      = mmapV erasePath ((mlookup acc.bySlug vs.1).getD []) := by
    cases mlookup acc.bySlug vs.1 <;> rfl
  have hbp : ((mlookup acc.byPath vs.1).map (mmapV erasePath)).getD []
      = mmapV erasePath ((mlookup acc.byPath vs.1).getD []) := by
    cases mlookup acc.byPath vs.1 <;> rfl
  rw [hbs, hbp, foldl_indexSectionInto_erase, minsert_mmapV, minsert_mmapV]

theorem foldl_indexVersionStep_erase (l : List (String × List Section)) :
    ∀ acc, (l.map (fun vs => (vs.1, vs.2.map erasePath))).foldl indexVersionStep
        (erasePathIdx acc)
      = erasePathIdx (l.foldl indexVersionStep acc) := by
  induction l with
  | nil => intro acc; rfl
  | cons vs l ih =>
    intro acc
    rw [List.map_cons, List.foldl_cons, List.foldl_cons, indexVersionStep_erase]
    exact ih (indexVersionStep acc vs)

/-- The serialize-then-load round trip on a freshly built index erases
exactly the non-serialized `path` fields and changes nothing else. -/
theorem roundtrip_erases_path (versions : List String) (latest : String)
    (sections : List (String × List Section)) :
    loadJSON (SectionIndex.writeJSON (mkIndex versions latest sections))
      = erasePathIdx (mkIndex versions latest sections) := by
  have hsec := mkIndex_sections versions latest sections
  have hver : (mkIndex versions latest sections).versions = versions :=
    foldl_indexVersionStep_versions sections _
  have hlat := mkIndex_latest versions latest sections
  unfold loadJSON SectionIndex.writeJSON
  rw [hsec, hver, hlat]
  have hmap : (sections.map (fun vs => (vs.1, vs.2.map Section.serialize))).map
      (fun vs => (vs.1, vs.2.map SerializedSection.deserialize))
      = sections.map (fun vs => (vs.1, vs.2.map erasePath)) := by
    rw [List.map_map]
    apply List.map_congr_left
    intro vs _
    show (vs.1, (vs.2.map Section.serialize).map SerializedSection.deserialize)
      = (vs.1, vs.2.map erasePath)
    rw [List.map_map]
    have hfun : SerializedSection.deserialize ∘ Section.serialize = erasePath := by
      funext a; rfl
    rw [hfun]
  rw [hmap]
  show (sections.map (fun vs => (vs.1, vs.2.map erasePath))).foldl indexVersionStep
      ⟨versions, latest, sections.map (fun vs => (vs.1, vs.2.map erasePath)), [], []⟩
    = erasePathIdx (mkIndex versions latest sections)
  have hbase : (⟨versions, latest,
      sections.map (fun vs => (vs.1, vs.2.map erasePath)), [], []⟩ : SectionIndex)
      = erasePathIdx ⟨versions, latest, sections, [], []⟩ := rfl
  rw [hbase, foldl_indexVersionStep_erase]
  rfl

theorem filter_map_erasePath (l : List Section) (p : Section → Bool)
    (hp : ∀ s, p (erasePath s) = p s) :
    (l.map erasePath).filter p = (l.filter p).map erasePath := by
  induction l with
  | nil => rfl
  | cons s l ih =>
    by_cases h : p s = true
    · simp [List.filter_cons, hp, h, ih]
    · simp only [List.map_cons, List.filter_cons, hp s, h]
      simpa [h] using ih

/-- C1 counterexample to strict result identity: the round-tripped index
answers `GetAll` with Sections whose `path` field (never serialized) is
zeroed, so the results are not identical to the original's. -/
theorem c1_counterexample :
    (getAll (loadJSON (SectionIndex.writeJSON dupSlugIdx)) "v1").toOption
      ≠ (getAll dupSlugIdx "v1").toOption := by decide

/-- C1 (amended): for every freshly built index, serializing with
`WriteJSON` and reloading with `LoadJSON` yields an index on which
`GetAll`, `GetBySlug` and `GetByCategory` agree with the original on every
version and every query — succeeding and failing identically, with
identical error text, and with results identical up to the non-serialized
internal `path` field, which comes back zeroed. -/
theorem c1_roundtrip_queries (versions : List String) (latest : String)
    (sections : List (String × List Section)) :
    (∀ v, getAll (loadJSON (SectionIndex.writeJSON (mkIndex versions latest sections))) v
        = (getAll (mkIndex versions latest sections) v).map (List.map erasePath))
    ∧ (∀ k v, getBySlug (loadJSON (SectionIndex.writeJSON (mkIndex versions latest sections))) k v
        = (getBySlug (mkIndex versions latest sections) k v).map erasePath)
    ∧ (∀ cat v, getByCategory (loadJSON (SectionIndex.writeJSON (mkIndex versions latest sections))) cat v
        = (getByCategory (mkIndex versions latest sections) cat v).map (List.map erasePath)) := by
  rw [roundtrip_erases_path]
  set idx := mkIndex versions latest sections with hidx
  have getAll_eq : ∀ (j : SectionIndex) (v : String), getAll j v
      = if j.hasVersion (resolveVersion j v) = false
        then .error ("version not found: " ++ resolveVersion j v)
        else .ok (j.getVersion (resolveVersion j v)) := fun _ _ => rfl
  have getBySlug_eq : ∀ (j : SectionIndex) (k v : String), getBySlug j k v
      = if j.hasVersion (resolveVersion j v) = false
        then .error ("version not found: " ++ resolveVersion j v)
        else
          match mlookup j.bySlug (resolveVersion j v) with
          | none => .error ("no slug index for version: " ++ resolveVersion j v)
          | some versionIndex =>
            match mlookup versionIndex k with
            | none => .error ("section not found: " ++ k)
            | some s => .ok s := fun _ _ _ => rfl
  have getByCategory_eq : ∀ (j : SectionIndex) (cat v : String), getByCategory j cat v
      = if j.hasVersion (resolveVersion j v) = false
        then .error ("version not found: " ++ resolveVersion j v)
        else .ok ((j.getVersion (resolveVersion j v)).filter
          (fun s => s.category = cat)) := fun _ _ _ => rfl
  have hres : ∀ v, resolveVersion (erasePathIdx idx) v = resolveVersion idx v := by
    intro v
    unfold resolveVersion erasePathIdx
    rfl
  have hhas : ∀ v, (erasePathIdx idx).hasVersion v = idx.hasVersion v := by
    intro v
    unfold SectionIndex.hasVersion erasePathIdx
    simp [mlookup_mmapV]
  have hget : ∀ v, (erasePathIdx idx).getVersion v = (idx.getVersion v).map erasePath := by
    intro v
    unfold SectionIndex.getVersion erasePathIdx
    simp only [mlookup_mmapV]
    cases mlookup idx.sections v <;> rfl
  refine ⟨?_, ?_, ?_⟩
  · intro v
    rw [getAll_eq, getAll_eq, hres, hhas]
    cases h : idx.hasVersion (resolveVersion idx v)
    · rfl
    · rw [hget]
      rfl
  · intro k v
    rw [getBySlug_eq, getBySlug_eq, hres, hhas]
    cases h : idx.hasVersion (resolveVersion idx v)
    · rfl
    · have hby : mlookup (erasePathIdx idx).bySlug (resolveVersion idx v)
          = (mlookup idx.bySlug (resolveVersion idx v)).map (mmapV erasePath) := by
        unfold erasePathIdx
        simp [mlookup_mmapV]
      rw [hby]
      cases hm : mlookup idx.bySlug (resolveVersion idx v) with
      | none => rfl
      | some m =>
        simp only [Option.map, Bool.true_eq_false, if_false, mlookup_mmapV]
        cases mlookup m k <;> rfl
  · intro cat v
    rw [getByCategory_eq, getByCategory_eq, hres, hhas]
    cases h : idx.hasVersion (resolveVersion idx v)
    · rfl
    · rw [hget, filter_map_erasePath]
      · rfl
      · intro s
        rfl

/-! ## Claim C7 -/

theorem isPrefixOf_append_self : ∀ (l t : List Char), l.isPrefixOf (l ++ t) = true := by
  intro l t
  induction l with
  | nil => simp [List.isPrefixOf]
  | cons a l ih => simp [List.isPrefixOf, ih]

theorem isSuffixOf_append_self (l1 l2 : List Char) :
    l2.isSuffixOf (l1 ++ l2) = true := by
  simp [List.isSuffixOf, List.reverse_append, isPrefixOf_append_self]

/-- `TrimSuffix` removes an actual suffix. -/
theorem trimSuffixStr_data (suf s x : String) (h : s.data = x.data ++ suf.data) :
    trimSuffixStr suf s = x := by
  have hsuf : suf.data.isSuffixOf s.data = true := by
    rw [h]; exact isSuffixOf_append_self x.data suf.data
  have harith : s.data.length - suf.data.length = x.data.length := by
    rw [h, List.length_append]; omega
  unfold trimSuffixStr
  rw [hsuf, if_pos rfl, harith, h, List.take_left]

/-- `TrimSuffix` is the identity when the suffix does not occur. -/
theorem trimSuffixStr_of_not (suf s : String) (h : suf.data.isSuffixOf s.data = false) :
    trimSuffixStr suf s = s := by
  unfold trimSuffixStr
  rw [h]
  simp

/-- The slug derivation exactly as the C7 specification sentence words it
(for comparison with the source's `pathToSlug`): the relative path minus
the markdown extension, and when the filename before the extension is the
reserved index name `_index`, the trailing index segment is stripped so
that the index file's slug equals its parent directory's slug — for an
index file directly at the version root, the parent is the root itself,
whose slug is the empty string. -/
def specSlug (relPath : String) : String :=
  let base := trimSuffixStr ".md" relPath
  if baseNameOf base = "_index" then
    if (splitOnSep '/' base).length ≤ 1 then "" else dirOf base
  else base

/-- Counterexample to C7 as stated: for an index file directly at the
version root, the source's `pathToSlug` does not strip the index segment
(it only strips `/_index`, which requires a preceding separator), so the
derived slug is `_index` rather than the parent directory's slug `""`. -/
theorem c7_counterexample :
    pathToSlug "_index.md" = "_index"
    ∧ specSlug "_index.md" = ""
    ∧ pathToSlug "_index.md" ≠ specSlug "_index.md" :=
  ⟨by decide, by decide, by decide⟩

/-- C7 (amended): the derived slug is the relative path minus the
markdown extension (separators are already `/` on the target platform);
for an index file inside a subdirectory `dir` that is not itself named so
as to end in `/_index`, the trailing index segment is stripped and the
slug equals `dir`, the parent directory's slug; but an index file directly
at the version root keeps the slug `_index`. -/
theorem c7_slug_derivation :
    (∀ rel : String,
      ("/_index".data.isSuffixOf (trimSuffixStr ".md" rel).data) = false →
      pathToSlug rel = trimSuffixStr ".md" rel)
    ∧ (∀ dir : String, ("/_index".data.isSuffixOf dir.data) = false →
        pathToSlug (dir ++ "/_index.md") = dir)
    ∧ pathToSlug "_index.md" = "_index" := by
  refine ⟨?_, ?_, by decide⟩
  · intro rel h
    unfold pathToSlug
    rw [trimSuffixStr_of_not _ _ h, trimSuffixStr_of_not _ _ h]
  · intro dir h
    unfold pathToSlug
    have h1 : trimSuffixStr ".md" (dir ++ "/_index.md") = dir ++ "/_index" := by
      apply trimSuffixStr_data
      rw [String.data_append, String.data_append, List.append_assoc]
      rfl
    have h2 : trimSuffixStr "/_index" (dir ++ "/_index") = dir := by
      apply trimSuffixStr_data
      rw [String.data_append]
    rw [h1, h2, trimSuffixStr_of_not _ _ h]

/-- Witness for the amended C7: a nested index file collapses to its
parent directory's slug, and a plain file keeps its extension-stripped
path. -/
theorem c7_witness :
    pathToSlug ("using-k6/scenarios" ++ "/_index.md") = "using-k6/scenarios"
    ∧ pathToSlug "javascript-api/k6-http/request.md"
        = trimSuffixStr ".md" "javascript-api/k6-http/request.md" :=
  ⟨(c7_slug_derivation).2.1 "using-k6/scenarios" (by decide),
   (c7_slug_derivation).1 "javascript-api/k6-http/request.md" (by decide)⟩

/-- Witness for C6 at the concrete fixture: the built list is sorted and
`GetAll` returns it. -/
theorem c6_witness :
    List.Sorted sectionOrd c6SortedSecs ∧ getAll c6Idx "v1" = .ok c6SortedSecs :=
  ⟨(c6_canonical_sibling_order "/docs" c6VF c6Idx rfl "v1" c6SortedSecs
      (by decide) (by decide)).1,
   (c6_canonical_sibling_order "/docs" c6VF c6Idx rfl "v1" c6SortedSecs
      (by decide) (by decide)).2.1⟩

/-! ## Claim C8: block structure of the frontmatter recovery pass -/

/-- All lines of `ls` carry no top-level key. -/
def NonKeyLines (ls : List String) : Prop := ∀ l ∈ ls, topLevelKey l = none

/-- Well-formedness of a keyed block list: every block has a non-empty
key, starts with the line declaring that key, and its remaining lines
carry no keys. -/
def WFTail (bs : List (String × List String)) : Prop :=
  ∀ b ∈ bs, b.1 ≠ ""
    ∧ ∃ l rest, b.2 = l :: rest ∧ topLevelKey l = some b.1 ∧ NonKeyLines rest

/-- A well-formed block list: an optional leading key-less block followed
by keyed blocks. -/
def WFBlocks : List (String × List String) → Prop
  | [] => True
  | b :: bs => (b.1 = "" ∧ b.2 ≠ [] ∧ NonKeyLines b.2 ∧ WFTail bs) ∨ WFTail (b :: bs)

theorem topLevelKey_ne_empty (l : String) (k : String) (h : topLevelKey l = some k) :
    k ≠ "" := by
  intro hk
  subst hk
  unfold topLevelKey at h
  split at h
  · cases h
  · split at h
    · cases h
    · split at h
      · cases h
      · split at h
        · cases h
        · split at h
          · cases h
          · split at h
            · cases h
            · rename_i hkey
              have hdata := congrArg String.data (Option.some_inj.mp h)
              simp at hdata
              exact hkey (Or.inl hdata)

theorem collectBody_nonkey (ls : List String) : NonKeyLines (collectBody ls).1 := by
  induction ls with
  | nil => intro l hl; simp [collectBody] at hl
  | cons x ls ih =>
    by_cases h : (topLevelKey x).isSome
    · intro l hl; simp [collectBody, h] at hl
    · intro l hl
      simp only [collectBody, h, Bool.false_eq_true, if_false, List.cons] at hl
      rcases List.mem_cons.mp hl with rfl | hl'
      · exact Option.not_isSome_iff_eq_none.mp h
      · exact ih l hl'

theorem collectBody_rest_shape (ls : List String) :
    (collectBody ls).2 = []
      ∨ ∃ l t, (collectBody ls).2 = l :: t ∧ (topLevelKey l).isSome := by
  induction ls with
  | nil => left; rfl
  | cons x ls ih =>
    by_cases h : (topLevelKey x).isSome
    · right; exact ⟨x, ls, by simp [collectBody, h], h⟩
    · simpa [collectBody, h] using ih

theorem collectBody_exact (p r : List String) (hp : NonKeyLines p)
    (hr : r = [] ∨ ∃ l t, r = l :: t ∧ (topLevelKey l).isSome) :
    collectBody (p ++ r) = (p, r) := by
  induction p with
  | nil =>
    rcases hr with rfl | ⟨l, t, rfl, hl⟩
    · rfl
    · simp [collectBody, hl]
  | cons x p ih =>
    have hx : topLevelKey x = none := hp x (List.mem_cons_self _ _)
    have hne : ¬ (topLevelKey x).isSome := by simp [hx]
    have := ih (fun l hl => hp l (List.mem_cons_of_mem x hl))
    simp [collectBody, hne, this]

theorem splitBlocks_tail_wf :
    ∀ (n : Nat) (ls : List String), ls.length ≤ n →
      (∀ l t, ls = l :: t → (topLevelKey l).isSome) → WFTail (splitBlocks ls) := by
  intro n
  induction n with
  | zero =>
    intro ls h _
    have : ls = [] := List.length_eq_zero.mp (Nat.le_zero.mp h)
    subst this
    intro b hb
    simp [splitBlocks, splitBlocksFuel] at hb
  | succ n ih =>
    intro ls hlen hhead
    cases ls with
    | nil => intro b hb; simp [splitBlocks, splitBlocksFuel] at hb
    | cons l ls =>
      have hkey : (topLevelKey l).isSome := hhead l ls rfl
      obtain ⟨k, hk⟩ := Option.isSome_iff_exists.mp hkey
      rw [splitBlocks_cons]
      intro b hb
      rcases List.mem_cons.mp hb with rfl | hb'
      · refine ⟨?_, l, (collectBody ls).1, ?_, ?_, collectBody_nonkey ls⟩
        · simp only [hk, Option.getD_some]
          exact topLevelKey_ne_empty l k hk
        · rfl
        · simp [hk]
      · have hrest := collectBody_rest_shape ls
        have hlen2 : (collectBody ls).2.length ≤ n := by
          have := collectBody_snd_length ls
          simp only [List.length_cons] at hlen
          omega
        refine ih (collectBody ls).2 hlen2 ?_ b hb'
        intro l' t' he
        rcases hrest with h0 | ⟨l2, t2, h2, hk2⟩
        · rw [h0] at he; cases he
        · rw [h2] at he
          cases he
          exact hk2

theorem splitBlocks_wf (ls : List String) : WFBlocks (splitBlocks ls) := by
  cases ls with
  | nil => trivial
  | cons l ls =>
    cases hk : topLevelKey l with
    | some k =>
      have : WFTail (splitBlocks (l :: ls)) := by
        apply splitBlocks_tail_wf (l :: ls).length _ le_rfl
        intro l' t' he
        cases he
        simp [hk]
      rw [splitBlocks_cons] at this ⊢
      exact Or.inr this
    | none =>
      rw [splitBlocks_cons]
      left
      refine ⟨by simp [hk], by simp, ?_, ?_⟩
      · intro x hx
        rcases List.mem_cons.mp hx with rfl | hx'
        · exact hk
        · exact collectBody_nonkey ls x hx'
      · apply splitBlocks_tail_wf (collectBody ls).2.length _ le_rfl
        intro l' t' he
        rcases collectBody_rest_shape ls with h0 | ⟨l2, t2, h2, hk2⟩
        · rw [h0] at he; cases he
        · rw [h2] at he; cases he; exact hk2

theorem flatten_head_key (bs : List (String × List String)) (h : WFTail bs) :
    (bs.map Prod.snd).flatten = []
      ∨ ∃ l t, (bs.map Prod.snd).flatten = l :: t ∧ (topLevelKey l).isSome := by
  cases bs with
  | nil => left; rfl
  | cons b bs =>
    obtain ⟨_, l, rest, hlines, hkey, _⟩ := h b (List.mem_cons_self _ _)
    right
    refine ⟨l, rest ++ (bs.map Prod.snd).flatten, ?_, by simp [hkey]⟩
    simp [hlines]

theorem splitBlocks_flatten_tail :
    ∀ bs : List (String × List String), WFTail bs →
      splitBlocks ((bs.map Prod.snd).flatten) = bs := by
  intro bs
  induction bs with
  | nil => intro _; rfl
  | cons b bs ih =>
    intro h
    obtain ⟨hbne, l, rest, hlines, hkey, hnk⟩ := h b (List.mem_cons_self _ _)
    have htail : WFTail bs := fun c hc => h c (List.mem_cons_of_mem b hc)
    have hflat : ((b :: bs).map Prod.snd).flatten
        = l :: (rest ++ (bs.map Prod.snd).flatten) := by
      simp [hlines]
    rw [hflat, splitBlocks_cons,
      collectBody_exact rest ((bs.map Prod.snd).flatten) hnk (flatten_head_key bs htail)]
    simp only [hkey, Option.getD_some]
    rw [ih htail, ← hlines]

theorem splitBlocks_flatten (bs : List (String × List String)) (h : WFBlocks bs) :
    splitBlocks ((bs.map Prod.snd).flatten) = bs := by
  cases bs with
  | nil => rfl
  | cons b bs =>
    rcases h with ⟨hb1, hbne, hbnk, hbtail⟩ | htail
    · cases hlines : b.2 with
      | nil => exact absurd hlines hbne
      | cons x p =>
        have hx : topLevelKey x = none := by
          apply hbnk
          rw [hlines]
          exact List.mem_cons_self _ _
        have hp : NonKeyLines p := by
          intro y hy
          apply hbnk
          rw [hlines]
          exact List.mem_cons_of_mem x hy
        have hflat : ((b :: bs).map Prod.snd).flatten
            = x :: (p ++ (bs.map Prod.snd).flatten) := by
          simp [hlines]
        rw [hflat, splitBlocks_cons,
          collectBody_exact p ((bs.map Prod.snd).flatten) hp (flatten_head_key bs hbtail)]
        simp only [hx, Option.getD_none]
        rw [splitBlocks_flatten_tail bs hbtail, ← hlines, ← hb1]
    · exact splitBlocks_flatten_tail (b :: bs) htail

theorem keepLast_cons (b : String × List String) (bs : List (String × List String)) :
    keepLast (b :: bs)
      = if b.1 ≠ "" ∧ bs.any (fun c => c.1 = b.1) then keepLast bs
        else b :: keepLast bs := rfl

theorem keepLast_mem {b : String × List String} :
    ∀ bs : List (String × List String), b ∈ keepLast bs → b ∈ bs := by
  intro bs
  induction bs with
  | nil => intro h; exact h
  | cons c bs ih =>
    intro h
    rw [keepLast_cons] at h
    by_cases hc : c.1 ≠ "" ∧ bs.any (fun d => d.1 = c.1)
    · rw [if_pos hc] at h
      exact List.mem_cons_of_mem c (ih h)
    · rw [if_neg hc] at h
      rcases List.mem_cons.mp h with rfl | h'
      · exact List.mem_cons_self _ _
      · exact List.mem_cons_of_mem c (ih h')

theorem keepLast_tail_wf (bs : List (String × List String)) (h : WFTail bs) :
    WFTail (keepLast bs) :=
  fun b hb => h b (keepLast_mem bs hb)

theorem keepLast_wf (bs : List (String × List String)) (h : WFBlocks bs) :
    WFBlocks (keepLast bs) := by
  cases bs with
  | nil => trivial
  | cons b bs =>
    rcases h with ⟨hb1, hbne, hbnk, hbtail⟩ | htail
    · have hkeep : keepLast (b :: bs) = b :: keepLast bs := by
        rw [keepLast_cons, if_neg (by simp [hb1])]
      rw [hkeep]
      exact Or.inl ⟨hb1, hbne, hbnk, keepLast_tail_wf bs hbtail⟩
    · have : WFTail (keepLast (b :: bs)) := keepLast_tail_wf (b :: bs) htail
      cases hk : keepLast (b :: bs) with
      | nil => trivial
      | cons c cs =>
        rw [hk] at this
        exact Or.inr this

theorem keepLast_all_empty (bs : List (String × List String))
    (h : ∀ b ∈ bs, b.1 = "") : keepLast bs = bs := by
  induction bs with
  | nil => rfl
  | cons b bs ih =>
    rw [keepLast_cons, if_neg (by simp [h b (List.mem_cons_self _ _)])]
    rw [ih (fun c hc => h c (List.mem_cons_of_mem b hc))]

theorem keepLast_ne_nil (bs : List (String × List String)) (h : bs ≠ []) :
    keepLast bs ≠ [] := by
  induction bs with
  | nil => exact absurd rfl h
  | cons b bs ih =>
    rw [keepLast_cons]
    by_cases hc : b.1 ≠ "" ∧ bs.any (fun d => d.1 = b.1)
    · rw [if_pos hc]
      apply ih
      intro hnil
      rw [hnil] at hc
      simp at hc
    · rw [if_neg hc]
      simp

theorem keepLast_filter_key (k : String) (hk : k ≠ "") :
    ∀ bs : List (String × List String),
      (keepLast bs).filter (fun b => b.1 = k)
        = ((bs.filter (fun b => b.1 = k)).getLast?).toList := by
  intro bs
  induction bs with
  | nil => rfl
  | cons b bs ih =>
    rw [keepLast_cons]
    by_cases hbk : b.1 = k
    · have hbne : b.1 ≠ "" := by rw [hbk]; exact hk
      by_cases hlater : bs.any (fun d => d.1 = b.1)
      · rw [if_pos ⟨hbne, hlater⟩]
        rw [List.filter_cons, if_pos (by simp [hbk])]
        have hne : bs.filter (fun b => b.1 = k) ≠ [] := by
          obtain ⟨d, hd, hdk⟩ := List.any_eq_true.mp hlater
          intro hnil
          have : d ∈ bs.filter (fun b => b.1 = k) := by
            apply List.mem_filter.mpr
            refine ⟨hd, ?_⟩
            simp at hdk
            simp [hdk, hbk]
          rw [hnil] at this
          exact absurd this (List.not_mem_nil d)
        rw [ih]
        cases hfl : bs.filter (fun b => decide (b.1 = k)) with
        | nil => exact absurd hfl hne
        | cons c cs => rw [List.getLast?_cons_cons]
      · rw [if_neg (by intro hc; exact hlater hc.2)]
        rw [List.filter_cons, if_pos (by simp [hbk]), List.filter_cons,
          if_pos (by simp [hbk])]
        have hnil : bs.filter (fun b => b.1 = k) = [] := by
          rw [List.filter_eq_nil]
          intro d hd
          simp only [decide_eq_true_iff]
          intro hdk
          apply hlater
          apply List.any_eq_true.mpr
          exact ⟨d, hd, by simp [hdk, hbk]⟩
        rw [hnil] at ih ⊢
        simp [ih]
    · have hfb : (b :: bs).filter (fun b => b.1 = k) = bs.filter (fun b => b.1 = k) := by
        rw [List.filter_cons, if_neg (by simp [hbk])]
      by_cases hc : b.1 ≠ "" ∧ bs.any (fun d => d.1 = b.1)
      · rw [if_pos hc, ih, hfb]
      · rw [if_neg hc, List.filter_cons, if_neg (by simp [hbk]), ih, hfb]

/-! ## Claim C8: newline join/split round trip -/

theorem splitCharList_ne_nil (sep : Char) (l : List Char) : splitCharList sep l ≠ [] := by
  cases l with
  | nil => simp [splitCharList]
  | cons c cs =>
    by_cases hc : c = sep
    · simp [splitCharList, hc]
    · simp only [splitCharList, hc, if_false]
      cases splitCharList sep cs <;> simp

theorem splitCharList_no_sep (sep : Char) :
    ∀ l : List Char, ∀ g ∈ splitCharList sep l, sep ∉ g := by
  intro l
  induction l with
  | nil =>
    intro g hg
    simp [splitCharList] at hg
    subst hg
    simp
  | cons c cs ih =>
    intro g hg
    by_cases hc : c = sep
    · simp only [splitCharList, hc, if_pos rfl] at hg
      rcases List.mem_cons.mp hg with rfl | hg'
      · simp
      · exact ih g hg'
    · simp only [splitCharList, hc, if_false] at hg
      cases hsp : splitCharList sep cs with
      | nil => exact absurd hsp (splitCharList_ne_nil sep cs)
      | cons g0 gs =>
        rw [hsp] at hg
        rcases List.mem_cons.mp hg with rfl | hg'
        · intro hmem
          rcases List.mem_cons.mp hmem with he | hm
          · exact hc he.symm
          · exact ih g0 (hsp ▸ List.mem_cons_self _ _) hm
        · exact ih g (hsp ▸ List.mem_cons_of_mem g0 hg')

theorem splitCharList_single (sep : Char) :
    ∀ g : List Char, sep ∉ g → splitCharList sep g = [g] := by
  intro g
  induction g with
  | nil => intro _; rfl
  | cons c cs ih =>
    intro h
    have hc : ¬ c = sep := by
      intro e
      exact h (e ▸ List.mem_cons_self _ _)
    have htail : sep ∉ cs := fun hm => h (List.mem_cons_of_mem c hm)
    simp only [splitCharList, hc, if_false, ih htail]

theorem splitCharList_sep_append (sep : Char) :
    ∀ (g r : List Char), sep ∉ g →
      splitCharList sep (g ++ sep :: r) = g :: splitCharList sep r := by
  intro g
  induction g with
  | nil => intro r _; simp [splitCharList]
  | cons c cs ih =>
    intro r h
    have hc : ¬ c = sep := by
      intro e
      exact h (e ▸ List.mem_cons_self _ _)
    have htail : sep ∉ cs := fun hm => h (List.mem_cons_of_mem c hm)
    simp only [List.cons_append, splitCharList, hc, if_false]
    rw [show cs.append (sep :: r) = cs ++ sep :: r from rfl, ih r htail]

theorem joinCharList_roundtrip (sep : Char) :
    ∀ gs : List (List Char), gs ≠ [] → (∀ g ∈ gs, sep ∉ g) →
      splitCharList sep (joinCharList sep gs) = gs := by
  intro gs
  induction gs with
  | nil => intro h _; exact absurd rfl h
  | cons g gs ih =>
    intro _ hno
    cases gs with
    | nil => exact splitCharList_single sep g (hno g (List.mem_cons_self _ _))
    | cons g2 gs2 =>
      have hj : joinCharList sep (g :: g2 :: gs2)
          = g ++ sep :: joinCharList sep (g2 :: gs2) := rfl
      rw [hj, splitCharList_sep_append sep g _ (hno g (List.mem_cons_self _ _)),
        ih (by simp) (fun x hx => hno x (List.mem_cons_of_mem g hx))]

theorem splitOnSep_ne_nil (sep : Char) (s : String) : splitOnSep sep s ≠ [] := by
  unfold splitOnSep
  simp [splitCharList_ne_nil]

theorem splitOnSep_no_sep (sep : Char) (s : String) :
    ∀ t ∈ splitOnSep sep s, sep ∉ t.data := by
  intro t ht
  obtain ⟨g, hg, rfl⟩ := List.mem_map.mp ht
  exact splitCharList_no_sep sep s.data g hg

theorem joinSep_splitOnSep (sep : Char) (ls : List String) (hne : ls ≠ [])
    (hno : ∀ t ∈ ls, sep ∉ t.data) : splitOnSep sep (joinSep sep ls) = ls := by
  unfold splitOnSep joinSep
  have hd : (String.mk (joinCharList sep (ls.map String.data))).data
      = joinCharList sep (ls.map String.data) := rfl
  rw [hd, joinCharList_roundtrip sep (ls.map String.data) (by simpa using hne)
      (fun g hg => by
        obtain ⟨t, ht, rfl⟩ := List.mem_map.mp hg
        exact hno t ht)]
  rw [List.map_map]
  have hid : (String.mk ∘ String.data) = id := funext (fun s => rfl)
  rw [hid, List.map_id]

/-! ## Claim C8: the line-level dedupe keeps the last block per key -/

theorem collectBody_append (ls : List String) :
    (collectBody ls).1 ++ (collectBody ls).2 = ls := by
  induction ls with
  | nil => rfl
  | cons x ls ih =>
    by_cases h : (topLevelKey x).isSome
    · simp [collectBody, h]
    · simp [collectBody, h, ih]

theorem blocks_flatten_eq :
    ∀ (n : Nat) (ls : List String), ls.length ≤ n →
      ((splitBlocks ls).map Prod.snd).flatten = ls := by
  intro n
  induction n with
  | zero =>
    intro ls h
    have : ls = [] := List.length_eq_zero.mp (Nat.le_zero.mp h)
    subst this
    rfl
  | succ n ih =>
    intro ls hlen
    cases ls with
    | nil => rfl
    | cons l ls =>
      rw [splitBlocks_cons]
      have hrest := collectBody_snd_length ls
      have : ((splitBlocks (collectBody ls).2).map Prod.snd).flatten
          = (collectBody ls).2 := by
        apply ih
        simp only [List.length_cons] at hlen
        omega
      simp only [List.map_cons, List.flatten_cons, this, List.cons_append]
      rw [collectBody_append ls]

theorem dedupeLines_mem (ls : List String) (x : String)
    (h : x ∈ dedupeFrontmatterLines ls) : x ∈ ls := by
  unfold dedupeFrontmatterLines at h
  by_cases hall : (splitBlocks ls).all (fun b => b.1 = "") = true
  · rw [if_pos hall] at h
    exact h
  · rw [if_neg hall] at h
    obtain ⟨lines, hlines, hx⟩ := List.mem_flatten.mp h
    obtain ⟨b, hb, rfl⟩ := List.mem_map.mp hlines
    have hbin : b ∈ splitBlocks ls := keepLast_mem _ hb
    have : x ∈ ((splitBlocks ls).map Prod.snd).flatten := by
      apply List.mem_flatten.mpr
      exact ⟨b.2, List.mem_map_of_mem Prod.snd hbin, hx⟩
    rw [blocks_flatten_eq ls.length ls le_rfl] at this
    exact this

theorem wf_flatten_ne_nil (bs : List (String × List String)) (h : WFBlocks bs)
    (hne : bs ≠ []) : (bs.map Prod.snd).flatten ≠ [] := by
  cases bs with
  | nil => exact absurd rfl hne
  | cons b bs =>
    have hbne : b.2 ≠ [] := by
      rcases h with ⟨_, hbne, _, _⟩ | htail
      · exact hbne
      · obtain ⟨_, l, rest, hlines, _, _⟩ := htail b (List.mem_cons_self _ _)
        rw [hlines]
        simp
    simp only [List.map_cons, List.flatten_cons]
    intro hcon
    exact hbne (List.append_eq_nil.mp hcon).1

theorem dedupeLines_ne_nil (ls : List String) (h : ls ≠ []) :
    dedupeFrontmatterLines ls ≠ [] := by
  unfold dedupeFrontmatterLines
  by_cases hall : (splitBlocks ls).all (fun b => b.1 = "") = true
  · rw [if_pos hall]
    exact h
  · rw [if_neg hall]
    apply wf_flatten_ne_nil _ (keepLast_wf _ (splitBlocks_wf ls))
    apply keepLast_ne_nil
    cases ls with
    | nil => exact absurd rfl h
    | cons l ls =>
      rw [splitBlocks_cons]
      simp

theorem splitBlocks_dedupe (ls : List String) :
    splitBlocks (dedupeFrontmatterLines ls) = keepLast (splitBlocks ls) := by
  unfold dedupeFrontmatterLines
  by_cases hall : (splitBlocks ls).all (fun b => b.1 = "") = true
  · rw [if_pos hall, keepLast_all_empty _ (by
      intro b hb
      have := List.all_eq_true.mp hall b hb
      simpa using this)]
  · rw [if_neg hall]
    exact splitBlocks_flatten (keepLast (splitBlocks ls))
      (keepLast_wf _ (splitBlocks_wf ls))

theorem splitOnSep_dedupeFrontmatter (raw : String) :
    splitOnSep '\n' (dedupeFrontmatter raw)
      = dedupeFrontmatterLines (splitOnSep '\n' raw) := by
  unfold dedupeFrontmatter
  apply joinSep_splitOnSep
  · exact dedupeLines_ne_nil _ (splitOnSep_ne_nil '\n' raw)
  · intro t ht
    exact splitOnSep_no_sep '\n' raw t (dedupeLines_mem _ t ht)

/-- C8: duplicate-key recovery of `ParseFrontmatter`.  When the first
YAML parse fails with a duplicate-top-level-key error (recognized by the
`"mapping key"` substring), the parser re-attempts on
`dedupeFrontmatter raw`, whose block decomposition keeps, for each
distinct top-level key, exactly the last occurring block of the original;
the file is rejected exactly when the recovery text is unchanged or the
second parse also fails, and a successful second parse's frontmatter is
returned. -/
theorem c8_duplicate_key_recovery (yamlParse : String → Except String Frontmatter)
    (raw e : String) (hfail : yamlParse raw = .error e)
    (hdup : strContains e "mapping key" = true) :
    (∀ fm, dedupeFrontmatter raw ≠ raw → yamlParse (dedupeFrontmatter raw) = .ok fm →
        parseFrontmatterRaw yamlParse raw = .ok fm)
    ∧ ((parseFrontmatterRaw yamlParse raw).toOption = none ↔
        (dedupeFrontmatter raw = raw ∨ (yamlParse (dedupeFrontmatter raw)).toOption = none))
    ∧ (∀ k, k ≠ "" →
        (splitBlocks (splitOnSep '\n' (dedupeFrontmatter raw))).filter (fun b => b.1 = k)
          = ((splitBlocks (splitOnSep '\n' raw)).filter (fun b => b.1 = k)).getLast?.toList) := by
  have heq : parseFrontmatterRaw yamlParse raw
      = if dedupeFrontmatter raw = raw
        then .error ("failed to parse frontmatter YAML: " ++ e)
        else match yamlParse (dedupeFrontmatter raw) with
          | .ok fm => .ok fm
          | .error e2 => .error ("failed to parse frontmatter YAML: " ++ e2) := by
    unfold parseFrontmatterRaw
    rw [hfail]
    simp only [hdup]
    rfl
  refine ⟨?_, ?_, ?_⟩
  · intro fm hne hok
    rw [heq, if_neg hne, hok]
  · rw [heq]
    by_cases hs : dedupeFrontmatter raw = raw
    · simp [hs, Except.toOption]
    · rw [if_neg hs]
      cases hy : yamlParse (dedupeFrontmatter raw) with
      | ok fm => simp [hs, Except.toOption]
      | error e2 => simp [hs, Except.toOption]
  · intro k hk
    rw [splitOnSep_dedupeFrontmatter, splitBlocks_dedupe]
    exact keepLast_filter_key k hk (splitBlocks (splitOnSep '\n' raw))

/-- A stub for the external YAML library's behaviour on the two concrete
frontmatter texts the C8 witness uses: the duplicated text fails with a
duplicate-mapping-key error, its deduped form parses. -/
def yamlStub : String → Except String Frontmatter := fun s =>
  if s = "title: A\ntitle: B" then .error "mapping key already defined"
  else if s = "title: B" then .ok ⟨"B", "", 0, [], ""⟩
  else .error "unexpected input"

/-- Witness for C8: on a frontmatter that declares `title` twice, the
recovery keeps the last `title` block and the parse succeeds with it. -/
theorem c8_witness :
    parseFrontmatterRaw yamlStub "title: A\ntitle: B" = .ok ⟨"B", "", 0, [], ""⟩
    ∧ (splitBlocks (splitOnSep '\n' (dedupeFrontmatter "title: A\ntitle: B"))).filter
        (fun b => b.1 = "title")
      = ((splitBlocks (splitOnSep '\n' "title: A\ntitle: B")).filter
          (fun b => b.1 = "title")).getLast?.toList :=
  ⟨(c8_duplicate_key_recovery yamlStub "title: A\ntitle: B" "mapping key already defined"
      rfl (by decide)).1 ⟨"B", "", 0, [], ""⟩ (by decide) rfl,
   (c8_duplicate_key_recovery yamlStub "title: A\ntitle: B" "mapping key already defined"
      rfl (by decide)).2.2 "title" (by decide)⟩

end McpK6
